import Mathlib

/-!
# Olive node inputs and the position map of the node graph

A shallow embedding of `app/node/input.cpp` (class `NodeInput`: keyframe evaluation, keyframe
editing, invalidation ranges, copying) and of the position map of `app/node/graph.h` (class
`NodeGraph`).

* Times are exact rationals (`ℚ`).  The conversions `toDouble()` and the `qreal` arithmetic of the
  interpolation are taken as exact, so they are rational arithmetic too.
* `QList<NodeKeyframePtr>` is a `List NodeKeyframe`; a keyframe carries the address of its object
  (`ptr`), which is what `FindIndexOfKeyframeFromRawPtr` compares.
* `Q_ASSERT` failures and out-of-range `QList::at` are the result `none`.
* Signals emitted by an operation are returned, in order of emission, next to the new state.
  The `connect` / `disconnect` calls only wire the keyframe's own signals to the slots modelled
  here and are not part of the state.
-/

namespace Olive

/-! ## Data model -/

/-- Modelled from the spec: `NodeParam::DataType`, declared in `node/param.h`.  The five tags that `input.cpp` names, and one tag for every other type. -/
inductive DataType where
  | kFloat
  | kVec2
  | kVec3
  | kVec4
  | kColor
  | kOther
deriving DecidableEq

/-- Modelled from the spec: `NodeKeyframe::Type`, the interpolation type of a keyframe
(Hold, Linear, Bezier). -/
inductive KeyframeType where
  | kLinear
  | kHold
  | kBezier
deriving DecidableEq

/-- Modelled from the spec: the type-erased value (`QVariant`) of a parameter, as a closed tagged
variant.  A colour holds its four components; all remaining payloads are `Other`. -/
inductive QVariant where
  | Invalid
  | Double (d : ℚ)
  | Vector2D (x y : ℚ)
  | Vector3D (x y z : ℚ)
  | Vector4D (x y z w : ℚ)
  | Color (r g b a : ℚ)
  | Other (payload : ℕ)
deriving DecidableEq

/-- The conversion `QVariant::toDouble()`: the number held, and `0.0` when there is none. -/
def QVariant.toDouble : QVariant → ℚ
  | .Double d => d
  | _ => 0

/-- The conversion `QVariant::value<QVector2D>()`: a default-constructed vector on a mismatch. -/
def QVariant.toVector2D : QVariant → ℚ × ℚ
  | .Vector2D x y => (x, y)
  | _ => (0, 0)

/-- The conversion `QVariant::value<QVector3D>()`. -/
def QVariant.toVector3D : QVariant → ℚ × ℚ × ℚ
  | .Vector3D x y z => (x, y, z)
  | _ => (0, 0, 0)

/-- The conversion `QVariant::value<QVector4D>()`. -/
def QVariant.toVector4D : QVariant → ℚ × ℚ × ℚ × ℚ
  | .Vector4D x y z w => (x, y, z, w)
  | _ => (0, 0, 0, 0)

/-- Modelled from the spec: `lerp` of `common/lerp.h`, the linear
interpolation between `a` and `b` at fraction `t`. -/
def lerp (a b t : ℚ) : ℚ := a * (1 - t) + b * t

/-- Modelled from the spec: a keyframe object (`NodeKeyframe`, declared in `node/keyframe.h`) with
its time, value and interpolation type, and the address `ptr` of the object. -/
structure NodeKeyframe where
  ptr : ℕ
  time : ℚ
  value : QVariant
  type : KeyframeType
deriving DecidableEq

/-- Modelled from the spec: a bound of a `TimeRange`.  It is a rational time or one of the two
sentinel values `RATIONAL_MIN` and `RATIONAL_MAX`, which stand for negative and positive
infinity. -/
inductive TimeBound where
  | RATIONAL_MIN
  | finite (t : ℚ)
  | RATIONAL_MAX
deriving DecidableEq

/-- Modelled from the spec: `TimeRange`, the interval `[in, out]` of `common/timerange.h`; `set_in`
replaces the lower bound. -/
structure TimeRange where
  in_ : TimeBound
  out_ : TimeBound
deriving DecidableEq

/-- The setter `TimeRange::set_in`. -/
def TimeRange.set_in (r : TimeRange) (t : TimeBound) : TimeRange := { r with in_ := t }

/-- The bound lies strictly later than the time `t` (`t < b`). -/
def TimeBound.later_than (b : TimeBound) (t : ℚ) : Prop :=
  match b with
  | .RATIONAL_MIN => False
  | .finite x => t < x
  | .RATIONAL_MAX => True

/-- The bound lies strictly earlier than the time `t` (`b < t`). -/
def TimeBound.earlier_than (b : TimeBound) (t : ℚ) : Prop :=
  match b with
  | .RATIONAL_MIN => True
  | .finite x => x < t
  | .RATIONAL_MAX => False

/-- The time `t` lies outside the range: `t < in` or `t > out`. -/
def TimeRange.outside (r : TimeRange) (t : ℚ) : Prop :=
  r.in_.later_than t ∨ r.out_.earlier_than t

/-- The signals of `NodeInput` that the operations below emit. -/
inductive Signal where
  | ValueChanged (range_in range_out : TimeBound)
  | KeyframeAdded (key : NodeKeyframe)
  | KeyframeRemoved (key : NodeKeyframe)
  | KeyframeEnableChanged (enabled : Bool)
deriving DecidableEq

/-- The members of `NodeInput` that evaluation, keyframe editing and copying read or write:
its own members, and of the base class `NodeParam` the identifier `id_` and the edges, each edge
given by the address of the output it comes from. -/
structure NodeInput where
  data_type_ : DataType
  keyframable_ : Bool
  standard_value_ : QVariant
  keyframing_ : Bool
  keyframes_ : List NodeKeyframe
  id_ : String
  edges_ : List ℕ

/-- The keyframe sequence is strictly ascending in time. -/
def strictly_ascending (ks : List NodeKeyframe) : Prop :=
  ks.Pairwise (fun a b => a.time < b.time)

/-- Distinct entries of the sequence are distinct keyframe objects. -/
def distinct_objects (ks : List NodeKeyframe) : Prop :=
  (ks.map NodeKeyframe.ptr).Nodup

/-! ## Evaluation -/

/-- The function `NodeInput::type_can_be_interpolated`. -/
def type_can_be_interpolated (type : DataType) : Bool :=
  type == .kFloat || type == .kVec2 || type == .kVec3 || type == .kVec4 || type == .kColor

/-- The function `NodeInput::is_keyframing`. -/
def NodeInput.is_keyframing (p : NodeInput) : Bool := p.keyframing_

/-- The function `NodeInput::is_keyframable`. -/
def NodeInput.is_keyframable (p : NodeInput) : Bool := p.keyframable_

/-- The function `NodeInput::is_using_standard_value`. -/
def NodeInput.is_using_standard_value (p : NodeInput) : Bool :=
  !p.is_keyframing || p.keyframes_.isEmpty

/-- The final `else` block of the loop of `get_value_at_time`: the value interpolated between
`before` and `after`, by the `switch` over the data type. -/
def interpolated_value (data_type : DataType) (before after : NodeKeyframe) (time : ℚ) : QVariant :=
  let period_progress := (time - before.time) / (after.time - before.time)
  match data_type with
  | .kFloat => .Double (lerp before.value.toDouble after.value.toDouble period_progress)
  | .kVec2 =>
    .Vector2D (lerp before.value.toVector2D.1 after.value.toVector2D.1 period_progress)
      (lerp before.value.toVector2D.2 after.value.toVector2D.2 period_progress)
  | .kVec3 =>
    .Vector3D (lerp before.value.toVector3D.1 after.value.toVector3D.1 period_progress)
      (lerp before.value.toVector3D.2.1 after.value.toVector3D.2.1 period_progress)
      (lerp before.value.toVector3D.2.2 after.value.toVector3D.2.2 period_progress)
  | .kVec4 =>
    .Vector4D (lerp before.value.toVector4D.1 after.value.toVector4D.1 period_progress)
      (lerp before.value.toVector4D.2.1 after.value.toVector4D.2.1 period_progress)
      (lerp before.value.toVector4D.2.2.1 after.value.toVector4D.2.2.1 period_progress)
      (lerp before.value.toVector4D.2.2.2 after.value.toVector4D.2.2.2 period_progress)
  | _ => before.value

/-- The loop of `get_value_at_time` over the adjacent pairs `(before, after)`, from the pair at the
head of the list on, with the `return standard_value_` that follows the loop.  The three Bezier
branches are empty in the source, so the loop goes on to the next pair. -/
def get_value_at_time_loop (data_type : DataType) (standard_value : QVariant) (time : ℚ) :
    List NodeKeyframe → QVariant
  | before :: after :: rest =>
    if before.time = time
        ∨ type_can_be_interpolated data_type = false
        ∨ (before.time < time ∧ before.type = .kHold) then
      before.value
    else if before.time < time ∧ after.time > time then
      if before.type = .kBezier ∧ after.type = .kBezier then
        get_value_at_time_loop data_type standard_value time (after :: rest)
      else if before.type = .kLinear ∧ after.type = .kBezier then
        get_value_at_time_loop data_type standard_value time (after :: rest)
      else if before.type = .kLinear ∧ after.type = .kBezier then
        get_value_at_time_loop data_type standard_value time (after :: rest)
      else
        interpolated_value data_type before after time
    else
      get_value_at_time_loop data_type standard_value time (after :: rest)
  | _ => standard_value

/-- The function `NodeInput::get_value_at_time`. -/
def NodeInput.get_value_at_time (p : NodeInput) (time : ℚ) : QVariant :=
  if p.is_using_standard_value then p.standard_value_
  else
    match p.keyframes_.head?, p.keyframes_.getLast? with
    | some first, some last =>
      if first.time ≥ time then first.value
      else if last.time ≤ time then last.value
      else get_value_at_time_loop p.data_type_ p.standard_value_ time p.keyframes_
    | _, _ => p.standard_value_

/-! ## Keyframe lookup and ranges -/

/-- The loop of `FindIndexOfKeyframeFromRawPtr`, from index `i` on. -/
def FindIndexOfKeyframeFromRawPtr_from (raw_ptr : ℕ) : List NodeKeyframe → ℤ → ℤ
  | [], _ => -1
  | k :: rest, i =>
    if k.ptr = raw_ptr then i else FindIndexOfKeyframeFromRawPtr_from raw_ptr rest (i + 1)

/-- The function `NodeInput::FindIndexOfKeyframeFromRawPtr`. -/
def FindIndexOfKeyframeFromRawPtr (keyframes_ : List NodeKeyframe) (raw_ptr : ℕ) : ℤ :=
  FindIndexOfKeyframeFromRawPtr_from raw_ptr keyframes_ 0

/-- The accessor `keyframes_.at(i)`; an index out of range is a failed assertion. -/
def keyframes_at (keyframes_ : List NodeKeyframe) (i : ℤ) : Option NodeKeyframe :=
  if 0 ≤ i then keyframes_[i.toNat]? else none

/-- The function `NodeInput::get_range_around_index`. -/
def get_range_around_index (keyframes_ : List NodeKeyframe) (index : ℤ) : Option TimeRange :=
  if keyframes_.length > 1 then
    (if index > 0 then
        (keyframes_at keyframes_ (index - 1)).map (fun k => TimeBound.finite k.time)
      else some TimeBound.RATIONAL_MIN).bind fun range_begin =>
    (if index < (keyframes_.length : ℤ) - 1 then
        (keyframes_at keyframes_ (index + 1)).map (fun k => TimeBound.finite k.time)
      else some TimeBound.RATIONAL_MAX).bind fun range_end =>
    some ⟨range_begin, range_end⟩
  else some ⟨TimeBound.RATIONAL_MIN, TimeBound.RATIONAL_MAX⟩

/-- The function `NodeInput::get_range_affected_by_keyframe`. -/
def get_range_affected_by_keyframe (keyframes_ : List NodeKeyframe) (key : NodeKeyframe) :
    Option TimeRange :=
  let keyframe_index := FindIndexOfKeyframeFromRawPtr keyframes_ key.ptr
  (get_range_around_index keyframes_ keyframe_index).bind fun range =>
  if keyframes_.length > 1 ∧ keyframe_index > 0 then
    (keyframes_at keyframes_ (keyframe_index - 1)).bind fun prev =>
    if prev.type = .kHold then some (range.set_in (TimeBound.finite key.time)) else some range
  else some range

/-- The function `NodeInput::emit_time_range`, as the signal it emits. -/
def emit_time_range (range : TimeRange) : Signal := .ValueChanged range.in_ range.out_

/-- The function `NodeInput::emit_range_affected_by_keyframe`, as the signal it emits. -/
def emit_range_affected_by_keyframe (keyframes_ : List NodeKeyframe) (key : NodeKeyframe) :
    Option Signal :=
  (get_range_affected_by_keyframe keyframes_ key).map emit_time_range

/-! ## Keyframe mutation -/

/-- The function `NodeInput::insert_keyframe_internal`: the loop from the head of the list on.
A keyframe met before the insertion point that has the time of `key` fails the assertion. -/
def insert_keyframe_internal (key : NodeKeyframe) : List NodeKeyframe → Option (List NodeKeyframe)
  | [] => some [key]
  | compare :: rest =>
    if compare.time = key.time then none
    else if compare.time > key.time then some (key :: compare :: rest)
    else (insert_keyframe_internal key rest).map (fun l => compare :: l)

/-- The function `NodeInput::insert_keyframe`: the new state and the signals emitted. -/
def NodeInput.insert_keyframe (p : NodeInput) (key : NodeKeyframe) :
    Option (NodeInput × List Signal) :=
  if p.is_keyframable || p.keyframes_.isEmpty then
    (insert_keyframe_internal key p.keyframes_).bind fun ks =>
    (emit_range_affected_by_keyframe ks key).bind fun s =>
    some ({ p with keyframes_ := ks }, [Signal.KeyframeAdded key, s])
  else none

/-- The slot `NodeInput::KeyframeTimeChanged`, run for the keyframe object at address `sender`
(whose time has been changed already): the new state and the signals emitted. -/
def NodeInput.KeyframeTimeChanged (p : NodeInput) (sender : ℕ) :
    Option (NodeInput × List Signal) :=
  let keyframe_index := FindIndexOfKeyframeFromRawPtr p.keyframes_ sender
  if keyframe_index > -1 then
    (keyframes_at p.keyframes_ keyframe_index).bind fun key =>
    (get_range_around_index p.keyframes_ keyframe_index).bind fun original_range =>
    (if keyframe_index > 0 then
        (keyframes_at p.keyframes_ (keyframe_index - 1)).map (fun k => decide (k.time > key.time))
      else some false).bind fun before_is_later =>
    (if before_is_later then some true
      else if keyframe_index < (p.keyframes_.length : ℤ) - 1 then
        (keyframes_at p.keyframes_ (keyframe_index + 1)).map (fun k => decide (k.time < key.time))
      else some false).bind fun needs_resorting =>
    if needs_resorting then
      (insert_keyframe_internal key (p.keyframes_.eraseIdx keyframe_index.toNat)).bind fun ks =>
      (emit_range_affected_by_keyframe ks key).bind fun s =>
      some ({ p with keyframes_ := ks }, [s, emit_time_range original_range])
    else some (p, [emit_time_range original_range])
  else none

/-- The function `QList::removeOne` on the keyframe list: the first entry that is the object
`key` (shared pointers compare by address) is removed. -/
def removeOne (key : NodeKeyframe) : List NodeKeyframe → List NodeKeyframe
  | [] => []
  | k :: rest => if k.ptr = key.ptr then rest else k :: removeOne key rest

/-- The function `NodeInput::remove_keyframe`: the new state and the signals emitted. -/
def NodeInput.remove_keyframe (p : NodeInput) (key : NodeKeyframe) :
    Option (NodeInput × List Signal) :=
  if p.is_keyframable && decide (p.keyframes_.length > 1) then
    (get_range_affected_by_keyframe p.keyframes_ key).bind fun time_affected =>
    some ({ p with keyframes_ := removeOne key p.keyframes_ },
      [Signal.KeyframeRemoved key, emit_time_range time_affected])
  else none

/-! ## Keyframe queries -/

/-- The loop of `get_keyframe_at_time`: the first keyframe whose time is `time`. -/
def get_keyframe_at_time_loop (time : ℚ) : List NodeKeyframe → Option NodeKeyframe
  | [] => none
  | key :: rest => if key.time = time then some key else get_keyframe_at_time_loop time rest

/-- The function `NodeInput::get_keyframe_at_time`; `none` is the null pointer. -/
def NodeInput.get_keyframe_at_time (p : NodeInput) (time : ℚ) : Option NodeKeyframe :=
  if p.is_using_standard_value then none
  else get_keyframe_at_time_loop time p.keyframes_

/-- The loop of `get_closest_keyframe_to_time` over the pairs `(prev_key, next_key)`, from the
pair at the head of the list on, with the `return nullptr` that follows the loop. -/
def get_closest_keyframe_to_time_loop (time : ℚ) : List NodeKeyframe → Option NodeKeyframe
  | prev_key :: next_key :: rest =>
    if prev_key.time ≤ time ∧ next_key.time ≥ time then
      if next_key.time - time < time - prev_key.time then some next_key else some prev_key
    else get_closest_keyframe_to_time_loop time (next_key :: rest)
  | _ => none

/-- The function `NodeInput::get_closest_keyframe_to_time`; `none` is the null pointer. -/
def NodeInput.get_closest_keyframe_to_time (p : NodeInput) (time : ℚ) : Option NodeKeyframe :=
  if p.is_using_standard_value then none
  else
    match p.keyframes_.head?, p.keyframes_.getLast? with
    | some first, some last =>
      if time ≤ first.time then some first
      else if time ≥ last.time then some last
      else get_closest_keyframe_to_time_loop time p.keyframes_
    | _, _ => none

/-! ## Copying -/

/-- The function `NodeInput::IsArray`; only the subclass `NodeInputArray` answers true. -/
def NodeInput.IsArray (_p : NodeInput) : Bool := false

/-- The function `NodeInput::get_connected_output`; `none` is the null pointer. -/
def NodeInput.get_connected_output (p : NodeInput) : Option ℕ := p.edges_.head?

/-- The function `NodeInput::set_is_keyframing`: the new state and the signal emitted. -/
def NodeInput.set_is_keyframing (p : NodeInput) (k : Bool) : NodeInput × List Signal :=
  ({ p with keyframing_ := k }, [Signal.KeyframeEnableChanged k])

/-- The `foreach` of `CopyValues`: a fresh keyframe object for every keyframe of the source, in
order, with the same time, value and type; `alloc i` is the address of the `i`-th object
created. -/
def copy_keyframes (alloc : ℕ → ℕ) : ℕ → List NodeKeyframe → List NodeKeyframe
  | _, [] => []
  | i, key :: rest =>
    ⟨alloc i, key.time, key.value, key.type⟩ :: copy_keyframes alloc (i + 1) rest

/-- The function `NodeInput::CopyValues`: the new state of `dest` and the signals emitted on it.
The function `ConnectEdge` of `NodeParam` is a parameter, called with the output, `dest` and
`lock_connections`.  The sub-parameters of an array belong to `NodeInputArray`; `IsArray()` is
false for a `NodeInput`, so that branch is never entered here. -/
def NodeInput.CopyValues (ConnectEdge : ℕ → NodeInput → Bool → NodeInput × List Signal)
    (alloc : ℕ → ℕ) (source dest : NodeInput) (include_connections lock_connections : Bool) :
    Option (NodeInput × List Signal) :=
  if source.id_ = dest.id_ then
    let dest1 : NodeInput := { dest with standard_value_ := source.standard_value_ }
    let dest2 : NodeInput := { dest1 with keyframes_ := copy_keyframes alloc 0 source.keyframes_ }
    let dest3 := dest2.set_is_keyframing source.is_keyframing
    let dest4 : NodeInput × List Signal :=
      match (if include_connections then source.get_connected_output else none) with
      | some output =>
        ((ConnectEdge output dest3.1 lock_connections).1,
          dest3.2 ++ (ConnectEdge output dest3.1 lock_connections).2)
      | none => dest3
    if dest4.1.IsArray then none
    else some (dest4.1,
      dest4.2 ++ [Signal.ValueChanged TimeBound.RATIONAL_MIN TimeBound.RATIONAL_MAX])
  else none

/-! ## The position map of `NodeGraph` (`app/node/graph.h`)

The containers `QMap<Node*, PositionMap>` and `QHash<Node*, QPointF>` are association lists over
node addresses; a key that is absent and a key bound to an empty sub-map are different states. -/

/-- The lookup of a key in a `QMap` / `QHash`: the value of the first entry with that key. -/
def assoc_find {V : Type} (k : ℕ) : List (ℕ × V) → Option V
  | [] => none
  | e :: rest => if e.1 = k then some e.2 else assoc_find k rest

/-- The function `insert(k, v)` of `QMap` / `QHash`, also the write through a reference that
`operator[]` returned: the value of an existing key is replaced, a new key is entered in key
order. -/
def assoc_insert {V : Type} (k : ℕ) (v : V) : List (ℕ × V) → List (ℕ × V)
  | [] => [(k, v)]
  | e :: rest =>
    if e.1 = k then (k, v) :: rest
    else if k < e.1 then (k, v) :: e :: rest
    else e :: assoc_insert k v rest

/-- The function `remove(k)` of `QMap` / `QHash`: every entry with the key is removed. -/
def assoc_remove {V : Type} (k : ℕ) (m : List (ℕ × V)) : List (ℕ × V) :=
  m.filter (fun e => decide (e.1 ≠ k))

/-- The function `value(k)` of `QMap`: the value of the key, or a default-constructed (empty)
sub-map when the key is absent; the map is not changed. -/
def QMap_value {V : Type} (m : List (ℕ × List V)) (k : ℕ) : List V :=
  (assoc_find k m).getD []

/-- The container state after the non-const `operator[](k)` of `QMap`: an absent key is entered
with a default-constructed (empty) sub-map. -/
def QMap_subscript {V : Type} (m : List (ℕ × List V)) (k : ℕ) : List (ℕ × List V) :=
  if (assoc_find k m).isSome then m else assoc_insert k [] m

/-- The function `contains(k)` of `QHash`. -/
def QHash_contains {V : Type} (m : List (ℕ × V)) (k : ℕ) : Bool := (assoc_find k m).isSome

/-- A point `QPointF`, with exact coordinates. -/
structure QPointF where
  x : ℚ
  y : ℚ
deriving DecidableEq

/-- The type `NodeGraph::PositionMap`, a `QHash<Node*, QPointF>`. -/
abbrev PositionMap := List (ℕ × QPointF)

/-- The member `position_map_` of `NodeGraph`: per context, the positions of the nodes in it. -/
structure NodeGraph where
  position_map_ : List (ℕ × PositionMap)
deriving DecidableEq

/-- The position signals of `NodeGraph`. -/
inductive GraphSignal where
  | NodePositionAdded (node relative : ℕ) (position : QPointF)
  | NodePositionRemoved (node relative : ℕ)
deriving DecidableEq

/-- The function `NodeGraph::NodeMapContainsNode` (a `const` member). -/
def NodeGraph.NodeMapContainsNode (g : NodeGraph) (node context : ℕ) : Bool :=
  QHash_contains (QMap_value g.position_map_ context) node

/-- The function `NodeGraph::ContextContainsNode`: the answer and the state after the call, which
goes through the non-const `position_map_[context]`. -/
def NodeGraph.ContextContainsNode (g : NodeGraph) (node context : ℕ) : Bool × NodeGraph :=
  let position_map_1 := QMap_subscript g.position_map_ context
  (QHash_contains (QMap_value position_map_1 context) node, { position_map_ := position_map_1 })

/-- The function `NodeGraph::SetNodePosition`: the new state and the signal emitted. -/
def NodeGraph.SetNodePosition (g : NodeGraph) (node context : ℕ) (pos : QPointF) :
    NodeGraph × List GraphSignal :=
  let position_map_1 := QMap_subscript g.position_map_ context
  ({ position_map_ :=
      assoc_insert context (assoc_insert node pos (QMap_value position_map_1 context))
        position_map_1 },
    [GraphSignal.NodePositionAdded node context pos])

/-- The function `NodeGraph::RemoveNodePosition`: the new state and the signal emitted.  The
reference `map` is `position_map_[context]`; `map.remove(node)` writes through it. -/
def NodeGraph.RemoveNodePosition (g : NodeGraph) (node context : ℕ) :
    NodeGraph × List GraphSignal :=
  let position_map_1 := QMap_subscript g.position_map_ context
  let map := assoc_remove node (QMap_value position_map_1 context)
  let position_map_2 := assoc_insert context map position_map_1
  ({ position_map_ :=
      if map.isEmpty then assoc_remove context position_map_2 else position_map_2 },
    [GraphSignal.NodePositionRemoved node context])

/-! ## Specification-side definitions and sample inputs -/

/-- The lower bound that the keyframes `l` before a position give: the time of the last of them,
or negative infinity when there is none. -/
def bound_before (l : List NodeKeyframe) : TimeBound :=
  match l.getLast? with
  | some a => TimeBound.finite a.time
  | none => TimeBound.RATIONAL_MIN

/-- The upper bound that the keyframes `r` after a position give: the time of the first of them,
or positive infinity when there is none. -/
def bound_after (r : List NodeKeyframe) : TimeBound :=
  match r.head? with
  | some b => TimeBound.finite b.time
  | none => TimeBound.RATIONAL_MAX

/-- The lower bound of the range affected by `key` when the keyframes `l` precede it: as
`bound_before`, but the time of `key` itself when the keyframe just before it is a Hold. -/
def bound_before_affected (l : List NodeKeyframe) (key : NodeKeyframe) : TimeBound :=
  match l.getLast? with
  | some a => if a.type = .kHold then TimeBound.finite key.time else TimeBound.finite a.time
  | none => TimeBound.RATIONAL_MIN

/-- A keyframe of a float parameter. -/
def float_key (ptr : ℕ) (time value : ℚ) (type : KeyframeType) : NodeKeyframe :=
  ⟨ptr, time, .Double value, type⟩

/-- A keyframable float parameter with keyframing enabled, standard value `42` and the given
keyframes; it has the identifier `"in"` and no edge. -/
def float_input (keyframes : List NodeKeyframe) : NodeInput :=
  ⟨.kFloat, true, .Double 42, true, keyframes, "in", []⟩

/-- The content of a keyframe without the address of its object: time, value and type. -/
def NodeKeyframe.content (k : NodeKeyframe) : ℚ × QVariant × KeyframeType :=
  (k.time, k.value, k.type)

/-- A function `ConnectEdge` that leaves the input as it is and emits nothing, for sample
calls that copy without connections. -/
def ConnectEdge_unused (_output : ℕ) (dest : NodeInput) (_lock : Bool) :
    NodeInput × List Signal :=
  (dest, [])

/-- A keyframable float parameter whose keyframing flag is false, with standard value `42` and the
given keyframes. -/
def still_input (keyframes : List NodeKeyframe) : NodeInput :=
  ⟨.kFloat, true, .Double 42, false, keyframes, "in", []⟩

/-- A keyframable colour parameter with keyframing enabled, standard value black and the given
keyframes. -/
def color_input (keyframes : List NodeKeyframe) : NodeInput :=
  ⟨.kColor, true, .Color 0 0 0 1, true, keyframes, "in", []⟩

/-- The range `RangeAroundIndex(i)` in the words of the spec: from the previous keyframe's time if
`i > 0`, else negative infinity, to the next keyframe's time if `i` is not the last index, else
positive infinity. -/
def RangeAroundIndex_spec (ks : List NodeKeyframe) (i : ℕ) : TimeRange :=
  ⟨if 0 < i then
      match ks[i - 1]? with
      | some prev => TimeBound.finite prev.time
      | none => TimeBound.RATIONAL_MIN
    else TimeBound.RATIONAL_MIN,
   match ks[i + 1]? with
   | some next => TimeBound.finite next.time
   | none => TimeBound.RATIONAL_MAX⟩

/-- The range `RangeAffectedByKeyframe(key)` in the words of the spec, for `key` at index `i`:
`RangeAroundIndex(i)`, with the lower bound tightened to `key.time` if a previous keyframe exists
and is of type Hold. -/
def RangeAffectedByKeyframe_spec (ks : List NodeKeyframe) (key : NodeKeyframe) (i : ℕ) :
    TimeRange :=
  ⟨if 0 < i then
      match ks[i - 1]? with
      | some prev =>
        if prev.type = .kHold then TimeBound.finite key.time else TimeBound.finite prev.time
      | none => TimeBound.RATIONAL_MIN
    else TimeBound.RATIONAL_MIN,
   (RangeAroundIndex_spec ks i).out_⟩

/-! # Theorems -/

/-! ## Evaluation: basic facts -/

theorem head_last_of_strictly_ascending {ks : List NodeKeyframe} {first last : NodeKeyframe}
    (hs : strictly_ascending ks) (hf : ks.head? = some first) (hl : ks.getLast? = some last) :
    first = last ∨ first.time < last.time := by
  cases ks with
  | nil => simp at hf
  | cons a tl =>
    simp only [List.head?_cons, Option.some.injEq] at hf
    subst hf
    cases tl with
    | nil =>
      simp at hl
      exact Or.inl hl
    | cons b tl2 =>
      right
      rw [List.getLast?_cons_cons] at hl
      have hmem : last ∈ b :: tl2 := List.mem_of_getLast?_eq_some hl
      exact (List.pairwise_cons.mp hs).1 last hmem

theorem get_value_at_time_of_keyframing (p : NodeInput) (time : ℚ) (first last : NodeKeyframe)
    (hk : p.keyframing_ = true)
    (hf : p.keyframes_.head? = some first) (hl : p.keyframes_.getLast? = some last) :
    p.get_value_at_time time =
      if first.time ≥ time then first.value
      else if last.time ≤ time then last.value
      else get_value_at_time_loop p.data_type_ p.standard_value_ time p.keyframes_ := by
  have hne : p.keyframes_ ≠ [] := by
    intro h
    rw [h] at hf
    simp at hf
  have hstd : p.is_using_standard_value = false := by
    simp [NodeInput.is_using_standard_value, NodeInput.is_keyframing, hk, hne]
  simp only [NodeInput.get_value_at_time, hstd, hf, hl]
  simp

/-! ## Ordered insertion -/

theorem insert_keyframe_internal_spec (key : NodeKeyframe) (ks : List NodeKeyframe)
    (hfresh : ∀ x ∈ ks, x.time ≠ key.time) :
    ∃ l r, ks = l ++ r ∧ insert_keyframe_internal key ks = some (l ++ key :: r)
      ∧ (∀ x ∈ l, x.time < key.time) ∧ (∀ y, r.head? = some y → key.time < y.time) := by
  induction ks with
  | nil => exact ⟨[], [], rfl, rfl, by simp, by simp⟩
  | cons c rest ih =>
    have hc : c.time ≠ key.time := hfresh c (List.mem_cons_self _ _)
    by_cases hgt : c.time > key.time
    · refine ⟨[], c :: rest, rfl, ?_, by simp, ?_⟩
      · simp [insert_keyframe_internal, hc, hgt]
      · intro y hy
        simp only [List.head?_cons, Option.some.injEq] at hy
        subst hy
        exact hgt
    · obtain ⟨l, r, hlr, hins, hl, hr⟩ := ih (fun x hx => hfresh x (List.mem_cons_of_mem _ hx))
      refine ⟨c :: l, r, by simp [hlr], ?_, ?_, hr⟩
      · simp [insert_keyframe_internal, hc, hgt, hins]
      · intro x hx
        rcases List.mem_cons.mp hx with rfl | hx
        · exact lt_of_le_of_ne (not_lt.mp hgt) hc
        · exact hl x hx

theorem strictly_ascending_insert {key : NodeKeyframe} {l r : List NodeKeyframe}
    (hs : strictly_ascending (l ++ r)) (hl : ∀ x ∈ l, x.time < key.time)
    (hr : ∀ y, r.head? = some y → key.time < y.time) :
    strictly_ascending (l ++ key :: r) := by
  unfold strictly_ascending at hs ⊢
  rw [List.pairwise_append] at hs ⊢
  obtain ⟨h1, h2, h3⟩ := hs
  have hkr : ∀ y ∈ r, key.time < y.time := by
    intro y hy
    cases r with
    | nil => simp at hy
    | cons b tl =>
      have hb : key.time < b.time := hr b rfl
      rcases List.mem_cons.mp hy with rfl | hy
      · exact hb
      · exact lt_trans hb ((List.pairwise_cons.mp h2).1 y hy)
  refine ⟨h1, List.pairwise_cons.mpr ⟨hkr, h2⟩, ?_⟩
  intro a ha b hb
  rcases List.mem_cons.mp hb with rfl | hb
  · exact hl a ha
  · exact h3 a ha b hb

/-! ## Index lookup and ranges -/

theorem nil_or_snoc (l : List NodeKeyframe) : l = [] ∨ ∃ l2 a, l = l2 ++ [a] := by
  rcases List.eq_nil_or_concat l with h | ⟨l2, a, h⟩
  · exact Or.inl h
  · exact Or.inr ⟨l2, a, by rw [h, List.concat_eq_append]⟩

theorem FindIndex_from_append (raw : ℕ) (l : List NodeKeyframe) (k : NodeKeyframe)
    (r : List NodeKeyframe) (i : ℤ) (hl : ∀ x ∈ l, x.ptr ≠ raw) (hk : k.ptr = raw) :
    FindIndexOfKeyframeFromRawPtr_from raw (l ++ k :: r) i = i + l.length := by
  induction l generalizing i with
  | nil => simp [FindIndexOfKeyframeFromRawPtr_from, hk]
  | cons a tl ih =>
    have ha : a.ptr ≠ raw := hl a (List.mem_cons_self _ _)
    have h := ih (i + 1) (fun x hx => hl x (List.mem_cons_of_mem _ hx))
    rw [List.cons_append, FindIndexOfKeyframeFromRawPtr_from, if_neg ha, h]
    simp only [List.length_cons, Nat.cast_add, Nat.cast_one]
    ring

theorem FindIndex_append (l : List NodeKeyframe) (k : NodeKeyframe) (r : List NodeKeyframe)
    (hl : ∀ x ∈ l, x.ptr ≠ k.ptr) :
    FindIndexOfKeyframeFromRawPtr (l ++ k :: r) k.ptr = l.length := by
  unfold FindIndexOfKeyframeFromRawPtr
  rw [FindIndex_from_append k.ptr l k r 0 hl rfl]
  simp

theorem keyframes_at_nat (ks : List NodeKeyframe) (n : ℕ) :
    keyframes_at ks (n : ℤ) = ks[n]? := by
  simp [keyframes_at]

theorem keyframes_at_nat_succ (ks : List NodeKeyframe) (n : ℕ) :
    keyframes_at ks ((n : ℤ) + 1) = ks[n + 1]? := by
  have h := keyframes_at_nat ks (n + 1)
  simpa using h

theorem keyframes_at_nat_pred (ks : List NodeKeyframe) (n : ℕ) (hn : 0 < n) :
    keyframes_at ks ((n : ℤ) - 1) = ks[n - 1]? := by
  have h := keyframes_at_nat ks (n - 1)
  have e : ((n - 1 : ℕ) : ℤ) = (n : ℤ) - 1 := by omega
  rw [e] at h
  exact h

theorem get_range_around_index_nat (ks : List NodeKeyframe) (n : ℕ) :
    get_range_around_index ks (n : ℤ) =
      if 1 < ks.length then
        (if 0 < n then (ks[n - 1]?).map (fun k => TimeBound.finite k.time)
          else some TimeBound.RATIONAL_MIN).bind fun range_begin =>
        (if n + 1 < ks.length then (ks[n + 1]?).map (fun k => TimeBound.finite k.time)
          else some TimeBound.RATIONAL_MAX).bind fun range_end =>
        some ⟨range_begin, range_end⟩
      else some ⟨TimeBound.RATIONAL_MIN, TimeBound.RATIONAL_MAX⟩ := by
  unfold get_range_around_index
  have h1 : ((n : ℤ) > 0) = (0 < n) := by
    apply propext
    constructor <;> intro h <;> omega
  have h2 : ((n : ℤ) < (ks.length : ℤ) - 1) = (n + 1 < ks.length) := by
    apply propext
    constructor <;> intro h <;> omega
  rw [keyframes_at_nat_succ]
  by_cases hn : 0 < n
  · rw [keyframes_at_nat_pred ks n hn]
    simp only [h1, h2, gt_iff_lt]
  · simp only [h1, h2, gt_iff_lt, hn, if_false]

theorem getElem?_before (l : List NodeKeyframe) (k : NodeKeyframe) (r : List NodeKeyframe) :
    (l ++ k :: r)[l.length - 1]? = if 0 < l.length then l.getLast? else some k := by
  rcases nil_or_snoc l with rfl | ⟨l2, a, rfl⟩
  · simp
  · have e : l2 ++ [a] ++ k :: r = l2 ++ a :: k :: r := by simp
    rw [e, List.length_append, List.length_singleton, Nat.add_sub_cancel,
      List.getElem?_append_right (le_refl _)]
    simp

theorem getElem?_after (l : List NodeKeyframe) (k : NodeKeyframe) (r : List NodeKeyframe) :
    (l ++ k :: r)[l.length + 1]? = r.head? := by
  rw [List.getElem?_append_right (by omega)]
  cases r <;> simp

theorem get_range_around_index_append (l : List NodeKeyframe) (k : NodeKeyframe)
    (r : List NodeKeyframe) :
    get_range_around_index (l ++ k :: r) (l.length : ℤ) = some ⟨bound_before l, bound_after r⟩ := by
  rw [get_range_around_index_nat, getElem?_before, getElem?_after]
  rcases nil_or_snoc l with rfl | ⟨l2, a, rfl⟩
  · cases r with
    | nil => simp [bound_before, bound_after]
    | cons b r2 => simp [bound_before, bound_after]
  · cases r with
    | nil => simp [bound_before, bound_after]
    | cons b r2 =>
      simp only [bound_before, bound_after, List.length_append, List.length_cons,
        List.length_singleton, List.length_nil, List.getLast?_concat, List.head?_cons]
      rw [if_pos (by omega), if_pos (by omega), if_pos (by omega), if_pos (by omega)]
      rfl

theorem get_range_affected_by_keyframe_append (l : List NodeKeyframe) (k : NodeKeyframe)
    (r : List NodeKeyframe) (hl : ∀ x ∈ l, x.ptr ≠ k.ptr) :
    get_range_affected_by_keyframe (l ++ k :: r) k
      = some ⟨bound_before_affected l k, bound_after r⟩ := by
  unfold get_range_affected_by_keyframe
  simp only [FindIndex_append l k r hl, get_range_around_index_append, Option.some_bind]
  rcases nil_or_snoc l with rfl | ⟨l2, a, rfl⟩
  · simp [bound_before_affected, bound_before]
  · have hpos : 0 < (l2 ++ [a]).length := by simp
    have h1 : (l2 ++ [a] ++ k :: r).length > 1 ∧ ((l2 ++ [a]).length : ℤ) > 0 := by
      constructor
      · simp only [List.length_append, List.length_cons, List.length_nil]
        omega
      · omega
    rw [if_pos h1, keyframes_at_nat_pred _ _ hpos, getElem?_before, if_pos hpos]
    simp only [List.getLast?_concat, Option.some_bind, bound_before_affected, bound_before,
      TimeRange.set_in]
    split_ifs <;> rfl

theorem FindIndex_from_range (raw : ℕ) (ks : List NodeKeyframe) (i : ℤ) :
    FindIndexOfKeyframeFromRawPtr_from raw ks i = -1
      ∨ ∃ n : ℕ, n < ks.length ∧ FindIndexOfKeyframeFromRawPtr_from raw ks i = i + n := by
  induction ks generalizing i with
  | nil => exact Or.inl rfl
  | cons a tl ih =>
    by_cases ha : a.ptr = raw
    · right
      exact ⟨0, by simp, by simp [FindIndexOfKeyframeFromRawPtr_from, ha]⟩
    · rw [FindIndexOfKeyframeFromRawPtr_from, if_neg ha]
      rcases ih (i + 1) with h | ⟨n, hn, h⟩
      · exact Or.inl h
      · right
        refine ⟨n + 1, by simpa using hn, ?_⟩
        rw [h]
        push_cast
        ring

theorem FindIndex_range (ks : List NodeKeyframe) (raw : ℕ) :
    FindIndexOfKeyframeFromRawPtr ks raw = -1
      ∨ ∃ n : ℕ, n < ks.length ∧ FindIndexOfKeyframeFromRawPtr ks raw = n := by
  rcases FindIndex_from_range raw ks 0 with h | ⟨n, hn, h⟩
  · exact Or.inl h
  · exact Or.inr ⟨n, hn, by unfold FindIndexOfKeyframeFromRawPtr; rw [h]; simp⟩

theorem get_range_affected_by_keyframe_isSome (ks : List NodeKeyframe) (key : NodeKeyframe) :
    ∃ range, get_range_affected_by_keyframe ks key = some range := by
  unfold get_range_affected_by_keyframe
  rcases FindIndex_range ks key.ptr with h | ⟨n, hn, h⟩
  · rw [h]
    by_cases hlen : ks.length > 1
    · have h0 : keyframes_at ks 0 = ks[0]? := by
        have := keyframes_at_nat ks 0
        simpa using this
      have h1 : ks[0]? = some (ks[0]) := List.getElem?_eq_getElem (by omega)
      have h2 : (-1 : ℤ) < (ks.length : ℤ) - 1 := by omega
      simp [get_range_around_index, hlen, h0, h1, h2]
    · simp [get_range_around_index, hlen]
  · simp only [h]
    rw [get_range_around_index_nat]
    by_cases hlen : 1 < ks.length
    · rw [if_pos hlen]
      have hprev : 0 < n → ks[n - 1]? = some (ks[n - 1]) := fun _ =>
        List.getElem?_eq_getElem (by omega)
      have hnext : ∀ h : n + 1 < ks.length, ks[n + 1]? = some (ks[n + 1]) := fun h =>
        List.getElem?_eq_getElem h
      by_cases h0 : 0 < n
      · have hz : ks.length > 1 ∧ (n : ℤ) > 0 := ⟨hlen, by omega⟩
        by_cases h1 : n + 1 < ks.length
        · simp only [if_pos h0, hprev h0, if_pos h1, hnext h1, Option.map_some',
            Option.some_bind]
          rw [if_pos hz, keyframes_at_nat_pred ks n h0, hprev h0]
          simp only [Option.some_bind]
          split_ifs <;> exact ⟨_, rfl⟩
        · simp only [if_pos h0, hprev h0, if_neg h1, Option.map_some', Option.some_bind]
          rw [if_pos hz, keyframes_at_nat_pred ks n h0, hprev h0]
          simp only [Option.some_bind]
          split_ifs <;> exact ⟨_, rfl⟩
      · have hz : ¬ (ks.length > 1 ∧ (n : ℤ) > 0) := by
          intro hh
          omega
        by_cases h1 : n + 1 < ks.length
        · simp only [if_neg h0, if_pos h1, hnext h1, Option.map_some', Option.some_bind]
          rw [if_neg hz]
          exact ⟨_, rfl⟩
        · simp only [if_neg h0, if_neg h1, Option.some_bind]
          rw [if_neg hz]
          exact ⟨_, rfl⟩
    · have hz : ¬ (ks.length > 1 ∧ (n : ℤ) > 0) := fun hh => hlen hh.1
      rw [if_neg hlen]
      simp only [Option.some_bind]
      rw [if_neg hz]
      exact ⟨_, rfl⟩


theorem insert_keyframe_internal_append (key : NodeKeyframe) (l r : List NodeKeyframe)
    (hl : ∀ x ∈ l, x.time < key.time) (hr : ∀ y, r.head? = some y → key.time < y.time) :
    insert_keyframe_internal key (l ++ r) = some (l ++ key :: r) := by
  induction l with
  | nil =>
    cases r with
    | nil => rfl
    | cons b r2 =>
      have hb : key.time < b.time := hr b rfl
      simp [insert_keyframe_internal, ne_of_gt hb, hb]
  | cons a tl ih =>
    have ha : a.time < key.time := hl a (List.mem_cons_self _ _)
    have h := ih (fun x hx => hl x (List.mem_cons_of_mem _ hx))
    simp [insert_keyframe_internal, ne_of_lt ha, not_lt.mpr (le_of_lt ha), h]

theorem split_at_index (ks : List NodeKeyframe) (key : NodeKeyframe) (i : ℕ)
    (hi : ks[i]? = some key) :
    ∃ l r, ks = l ++ key :: r ∧ l.length = i := by
  obtain ⟨hlt, hget⟩ := List.getElem?_eq_some.mp hi
  refine ⟨ks.take i, ks.drop (i + 1), ?_, ?_⟩
  · rw [← hget, ← List.drop_eq_getElem_cons hlt, List.take_append_drop]
  · simp
    omega

theorem ptr_fresh_of_distinct {l r : List NodeKeyframe} {k : NodeKeyframe}
    (hd : distinct_objects (l ++ k :: r)) : ∀ x ∈ l ++ r, x.ptr ≠ k.ptr := by
  unfold distinct_objects at hd
  rw [List.map_append, List.map_cons] at hd
  have h1 := List.nodup_middle.mp hd
  rw [List.nodup_cons] at h1
  intro x hx hxk
  apply h1.1
  rw [← hxk, ← List.map_append]
  exact List.mem_map_of_mem _ hx


/-! ## Claims about evaluation -/

/-- C2 (counterexample): a keyframing parameter with exactly one keyframe, of value `7` at time
`0`, and standard value `42` evaluates to the keyframe's value `7`, not to the standard value. -/
theorem get_value_at_time_single_keyframe_not_standard :
    (float_input [float_key 1 0 7 .kLinear]).keyframes_.length ≤ 1
      ∧ (float_input [float_key 1 0 7 .kLinear]).get_value_at_time 0 = .Double 7
      ∧ (float_input [float_key 1 0 7 .kLinear]).get_value_at_time 0
          ≠ (float_input [float_key 1 0 7 .kLinear]).standard_value_ := by
  have h : (float_input [float_key 1 0 7 .kLinear]).get_value_at_time 0 = .Double 7 := by
    simp [float_input, float_key, NodeInput.get_value_at_time,
      NodeInput.is_using_standard_value, NodeInput.is_keyframing]
  refine ⟨by simp [float_input], h, ?_⟩
  rw [h]
  simp [float_input]

/-- C2 (amended): a parameter with no keyframe, or with the keyframing flag false, evaluates to
its standard value at every time; a keyframing parameter with exactly one keyframe evaluates to
that keyframe's value at every time. -/
theorem get_value_at_time_standard_value (p : NodeInput) (t : ℚ) :
    ((p.keyframes_ = [] ∨ p.keyframing_ = false) → p.get_value_at_time t = p.standard_value_)
      ∧ (∀ k, p.keyframes_ = [k] → p.keyframing_ = true → p.get_value_at_time t = k.value) := by
  constructor
  · intro h
    have hstd : p.is_using_standard_value = true := by
      rcases h with h | h
      · simp [NodeInput.is_using_standard_value, h]
      · simp [NodeInput.is_using_standard_value, NodeInput.is_keyframing, h]
    simp [NodeInput.get_value_at_time, hstd]
  · intro k hk hkf
    rw [get_value_at_time_of_keyframing p t k k hkf (by rw [hk]; rfl) (by rw [hk]; rfl)]
    by_cases h1 : k.time ≥ t
    · rw [if_pos h1]
    · rw [if_neg h1, if_pos (le_of_lt (not_le.mp h1))]

/-- C2 (witness): the amended statement at a parameter without keyframes and at a keyframing
parameter with one keyframe. -/
theorem get_value_at_time_standard_value_witness :
    (float_input []).get_value_at_time 3 = .Double 42
      ∧ (float_input [float_key 1 0 7 .kLinear]).get_value_at_time 3 = .Double 7 :=
  ⟨(get_value_at_time_standard_value (float_input []) 3).1 (Or.inl rfl),
   (get_value_at_time_standard_value (float_input [float_key 1 0 7 .kLinear]) 3).2
      (float_key 1 0 7 .kLinear) rfl rfl⟩

/-- C5: for a keyframing parameter with a non-empty strictly ascending keyframe sequence,
`get_value_at_time(t)` is the first keyframe's value for every `t ≤ first.time` and the last
keyframe's value for every `t ≥ last.time`. -/
theorem get_value_at_time_clamps (p : NodeInput) (first last : NodeKeyframe) (t : ℚ)
    (hk : p.keyframing_ = true) (hs : strictly_ascending p.keyframes_)
    (hf : p.keyframes_.head? = some first) (hl : p.keyframes_.getLast? = some last) :
    (t ≤ first.time → p.get_value_at_time t = first.value)
      ∧ (last.time ≤ t → p.get_value_at_time t = last.value) := by
  rw [get_value_at_time_of_keyframing p t first last hk hf hl]
  constructor
  · intro h
    rw [if_pos h]
  · intro h
    by_cases h1 : first.time ≥ t
    · rw [if_pos h1]
      rcases head_last_of_strictly_ascending hs hf hl with heq | hlt
      · rw [heq]
      · exact absurd (lt_of_lt_of_le hlt h) (not_lt.mpr h1)
    · rw [if_neg h1, if_pos h]

/-- C5 (witness): keyframes `(0, 0)` and `(10, 100)` give `0` at `t = -5` and `100` at
`t = 15`. -/
theorem get_value_at_time_clamps_witness :
    (float_input [float_key 1 0 0 .kLinear, float_key 2 10 100 .kLinear]).get_value_at_time (-5)
        = .Double 0
      ∧ (float_input [float_key 1 0 0 .kLinear, float_key 2 10 100 .kLinear]).get_value_at_time 15
        = .Double 100 :=
  ⟨(get_value_at_time_clamps (float_input [float_key 1 0 0 .kLinear, float_key 2 10 100 .kLinear])
      (float_key 1 0 0 .kLinear) (float_key 2 10 100 .kLinear) (-5) rfl
      (by simp [strictly_ascending, float_input, float_key]) rfl rfl).1
      (by simp [float_key]),
   (get_value_at_time_clamps (float_input [float_key 1 0 0 .kLinear, float_key 2 10 100 .kLinear])
      (float_key 1 0 0 .kLinear) (float_key 2 10 100 .kLinear) 15 rfl
      (by simp [strictly_ascending, float_input, float_key]) rfl rfl).2
      (by simp [float_key]; norm_num)⟩

/-- C1 (failing input): with keyframes `(0, 1, Hold)`, `(5, 2, Linear)`, `(10, 3, Linear)` the
value at the time `5` of the second keyframe is the value `1` of the first keyframe, not the
value `2` of the keyframe at that time. -/
theorem get_value_at_keyframe_time_after_hold :
    strictly_ascending
        [float_key 1 0 1 .kHold, float_key 2 5 2 .kLinear, float_key 3 10 3 .kLinear]
      ∧ (float_input [float_key 1 0 1 .kHold, float_key 2 5 2 .kLinear,
          float_key 3 10 3 .kLinear]).get_value_at_time 5 = .Double 1
      ∧ (float_key 2 5 2 .kLinear).value ≠ .Double 1 := by
  refine ⟨?_, ?_, ?_⟩
  · simp [strictly_ascending, float_key]
    norm_num
  · simp [float_input, float_key, NodeInput.get_value_at_time,
      NodeInput.is_using_standard_value, NodeInput.is_keyframing, get_value_at_time_loop]
    norm_num
  · simp [float_key]

/-- C3 (failing input): with keyframes `(0, 0, Hold)`, `(10, 10, Linear)`, `(20, 30, Linear)` the
value at the midpoint `15` of the Linear/Linear pair is the value `0` of the Hold keyframe, not
the interpolated value `(10 + 30) / 2 = 20`. -/
theorem get_value_at_midpoint_after_hold :
    strictly_ascending
        [float_key 1 0 0 .kHold, float_key 2 10 10 .kLinear, float_key 3 20 30 .kLinear]
      ∧ (float_input [float_key 1 0 0 .kHold, float_key 2 10 10 .kLinear,
          float_key 3 20 30 .kLinear]).get_value_at_time ((10 + 20) / 2) = .Double 0
      ∧ QVariant.Double 0 ≠ .Double ((10 + 30) / 2) := by
  refine ⟨?_, ?_, ?_⟩
  · simp [strictly_ascending, float_key]
    norm_num
  · simp [float_input, float_key, NodeInput.get_value_at_time,
      NodeInput.is_using_standard_value, NodeInput.is_keyframing, get_value_at_time_loop]
    norm_num
  · norm_num

/-- C4 (failing input): with keyframes `(0, 1, Hold)`, `(5, 2, Hold)`, `(10, 3, Linear)` the value
at `t = 7`, inside the segment of the Hold keyframe at `5`, is the value `1` of the first
keyframe, not the value `2` of that Hold keyframe. -/
theorem get_value_in_hold_segment_after_hold :
    strictly_ascending
        [float_key 1 0 1 .kHold, float_key 2 5 2 .kHold, float_key 3 10 3 .kLinear]
      ∧ (float_input [float_key 1 0 1 .kHold, float_key 2 5 2 .kHold,
          float_key 3 10 3 .kLinear]).get_value_at_time 7 = .Double 1
      ∧ (float_key 2 5 2 .kHold).value ≠ .Double 1 := by
  refine ⟨?_, ?_, ?_⟩
  · simp [strictly_ascending, float_key]
    norm_num
  · simp [float_input, float_key, NodeInput.get_value_at_time,
      NodeInput.is_using_standard_value, NodeInput.is_keyframing, get_value_at_time_loop]
    norm_num
  · simp [float_key]

/-! ## Claims about insertion and ranges -/

/-- C6: inserting a keyframe whose time differs from the time of every existing keyframe into a
strictly ascending sequence succeeds and yields a sequence that is strictly ascending again, is
exactly one longer, and contains the new keyframe together with all the old keyframes in their
previous relative order. -/
theorem insert_keyframe_keeps_order (p : NodeInput) (key : NodeKeyframe)
    (hpre : p.keyframable_ = true ∨ p.keyframes_ = [])
    (hs : strictly_ascending p.keyframes_)
    (hfresh : ∀ x ∈ p.keyframes_, x.time ≠ key.time) :
    ∃ ks signals,
      insert_keyframe_internal key p.keyframes_ = some ks
        ∧ p.insert_keyframe key = some ({ p with keyframes_ := ks }, signals)
        ∧ strictly_ascending ks
        ∧ ks.length = p.keyframes_.length + 1
        ∧ key ∈ ks
        ∧ p.keyframes_.Sublist ks
        ∧ ks.Perm (key :: p.keyframes_) := by
  obtain ⟨l, r, hlr, hins, hl, hr⟩ := insert_keyframe_internal_spec key p.keyframes_ hfresh
  obtain ⟨range, hrange⟩ := get_range_affected_by_keyframe_isSome (l ++ key :: r) key
  have hguard : (p.is_keyframable || p.keyframes_.isEmpty) = true := by
    rcases hpre with h | h
    · simp [NodeInput.is_keyframable, h]
    · simp [h]
  refine ⟨l ++ key :: r, [Signal.KeyframeAdded key, emit_time_range range], hins, ?_, ?_, ?_, ?_,
    ?_, ?_⟩
  · simp [NodeInput.insert_keyframe, hguard, hins, emit_range_affected_by_keyframe, hrange]
  · rw [hlr] at hs
    exact strictly_ascending_insert hs hl hr
  · rw [hlr]
    simp
    omega
  · simp
  · rw [hlr]
    exact List.Sublist.append (List.Sublist.refl l) (List.sublist_cons_self key r)
  · rw [hlr]
    exact List.perm_middle

/-- C6 (witness): inserting the keyframe at `t = 5` into the sequence with keyframes at `0` and
`10`. -/
theorem insert_keyframe_keeps_order_witness :
    ∃ ks signals,
      insert_keyframe_internal (float_key 3 5 7 .kLinear)
          (float_input [float_key 1 0 0 .kLinear, float_key 2 10 100 .kLinear]).keyframes_ = some ks
        ∧ (float_input [float_key 1 0 0 .kLinear, float_key 2 10 100 .kLinear]).insert_keyframe
            (float_key 3 5 7 .kLinear)
          = some ({ float_input [float_key 1 0 0 .kLinear, float_key 2 10 100 .kLinear] with
              keyframes_ := ks }, signals)
        ∧ strictly_ascending ks
        ∧ ks.length
          = (float_input [float_key 1 0 0 .kLinear, float_key 2 10 100 .kLinear]).keyframes_.length
            + 1
        ∧ float_key 3 5 7 .kLinear ∈ ks
        ∧ (float_input [float_key 1 0 0 .kLinear, float_key 2 10 100 .kLinear]).keyframes_.Sublist
            ks
        ∧ ks.Perm (float_key 3 5 7 .kLinear
            :: (float_input [float_key 1 0 0 .kLinear, float_key 2 10 100 .kLinear]).keyframes_) :=
  insert_keyframe_keeps_order
    (float_input [float_key 1 0 0 .kLinear, float_key 2 10 100 .kLinear])
    (float_key 3 5 7 .kLinear) (Or.inl rfl)
    (by simp [strictly_ascending, float_input, float_key])
    (by simp [float_input, float_key])

/-- C7: inserting a keyframe `key` with `a.time < key.time < b.time` between the adjacent keyframes
`a` and `b` of a strictly ascending sequence, `a` not of type Hold, emits the keyframe-added
notification and exactly one value-changed notification, whose range is `[a.time, b.time]`. -/
theorem insert_keyframe_between_emits (p : NodeInput) (l r : List NodeKeyframe)
    (a b key : NodeKeyframe)
    (hp : p.keyframes_ = l ++ a :: b :: r) (hable : p.keyframable_ = true)
    (hs : strictly_ascending p.keyframes_) (hptr : ∀ x ∈ p.keyframes_, x.ptr ≠ key.ptr)
    (ha : a.type ≠ .kHold) (h1 : a.time < key.time) (h2 : key.time < b.time) :
    p.insert_keyframe key
      = some ({ p with keyframes_ := l ++ a :: key :: b :: r },
          [Signal.KeyframeAdded key,
           Signal.ValueChanged (TimeBound.finite a.time) (TimeBound.finite b.time)]) := by
  have e1 : l ++ a :: b :: r = (l ++ [a]) ++ b :: r := by simp
  have e2 : l ++ a :: key :: b :: r = (l ++ [a]) ++ key :: b :: r := by simp
  have hl : ∀ x ∈ l ++ [a], x.time < key.time := by
    intro x hx
    rcases List.mem_append.mp hx with hx | hx
    · rw [hp] at hs
      have := (List.pairwise_append.mp hs).2.2 x hx a (List.mem_cons_self _ _)
      exact lt_trans this h1
    · rw [List.mem_singleton.mp hx]
      exact h1
  have hr : ∀ y, (b :: r).head? = some y → key.time < y.time := by
    intro y hy
    simp only [List.head?_cons, Option.some.injEq] at hy
    rw [← hy]
    exact h2
  have hins : insert_keyframe_internal key p.keyframes_ = some ((l ++ [a]) ++ key :: b :: r) := by
    rw [hp, e1]
    exact insert_keyframe_internal_append key (l ++ [a]) (b :: r) hl hr
  have hfresh : ∀ x ∈ l ++ [a], x.ptr ≠ key.ptr := by
    intro x hx
    apply hptr x
    rw [hp, e1]
    exact List.mem_append_left _ hx
  have hrange := get_range_affected_by_keyframe_append (l ++ [a]) key (b :: r) hfresh
  have hguard : (p.is_keyframable || p.keyframes_.isEmpty) = true := by
    simp [NodeInput.is_keyframable, hable]
  rw [← e2] at hins hrange
  simp [NodeInput.insert_keyframe, hguard, hins, emit_range_affected_by_keyframe, hrange,
    emit_time_range, bound_before_affected, bound_after, ha]

/-- C7 (witness): inserting `t = 5` between the keyframes at `t = 0` and `t = 10` emits the range
`[0, 10]`. -/
theorem insert_keyframe_between_emits_witness :
    (float_input [float_key 1 0 0 .kLinear, float_key 2 10 100 .kLinear]).insert_keyframe
        (float_key 3 5 7 .kLinear)
      = some (float_input
            [float_key 1 0 0 .kLinear, float_key 3 5 7 .kLinear, float_key 2 10 100 .kLinear],
          [Signal.KeyframeAdded (float_key 3 5 7 .kLinear),
           Signal.ValueChanged (TimeBound.finite 0) (TimeBound.finite 10)]) :=
  insert_keyframe_between_emits
    (float_input [float_key 1 0 0 .kLinear, float_key 2 10 100 .kLinear]) [] []
    (float_key 1 0 0 .kLinear) (float_key 2 10 100 .kLinear) (float_key 3 5 7 .kLinear)
    rfl rfl (by simp [strictly_ascending, float_input, float_key])
    (by simp [float_input, float_key]) (by simp [float_key])
    (by simp [float_key]) (by simp [float_key]; norm_num)

/-- C9: for a keyframe `key` at the valid index `i` of a keyframe sequence,
`get_range_affected_by_keyframe(key)` is the range the spec describes (upper bound the time of
keyframe `i + 1` or positive infinity; lower bound `key.time` if keyframe `i - 1` exists and is a
Hold, else the time of keyframe `i - 1`, else negative infinity), and `get_range_around_index(i)`
is the same range without the Hold tightening of the lower bound. -/
theorem get_range_affected_by_keyframe_eq_spec (ks : List NodeKeyframe) (key : NodeKeyframe)
    (i : ℕ) (hd : distinct_objects ks) (hi : ks[i]? = some key) :
    get_range_affected_by_keyframe ks key = some (RangeAffectedByKeyframe_spec ks key i)
      ∧ get_range_around_index ks (i : ℤ) = some (RangeAroundIndex_spec ks i) := by
  obtain ⟨l, r, hks, hlen⟩ := split_at_index ks key i hi
  subst hks
  subst hlen
  have hfresh : ∀ x ∈ l, x.ptr ≠ key.ptr := fun x hx =>
    ptr_fresh_of_distinct hd x (List.mem_append_left _ hx)
  rw [get_range_affected_by_keyframe_append l key r hfresh, get_range_around_index_append]
  unfold RangeAffectedByKeyframe_spec RangeAroundIndex_spec
  simp only [getElem?_before, getElem?_after]
  refine ⟨?_, ?_⟩
  · rcases nil_or_snoc l with rfl | ⟨l2, a, rfl⟩
    · simp [bound_before_affected, bound_after]
    · simp [bound_before_affected, bound_after]
  · rcases nil_or_snoc l with rfl | ⟨l2, a, rfl⟩
    · simp [bound_before, bound_after]
    · simp [bound_before, bound_after]

/-- C9 (witness): the range affected by the middle keyframe of three, the first being a Hold. -/
theorem get_range_affected_by_keyframe_eq_spec_witness :
    get_range_affected_by_keyframe
        [float_key 1 0 0 .kHold, float_key 2 5 7 .kLinear, float_key 3 10 100 .kLinear]
        (float_key 2 5 7 .kLinear)
        = some (RangeAffectedByKeyframe_spec
            [float_key 1 0 0 .kHold, float_key 2 5 7 .kLinear, float_key 3 10 100 .kLinear]
            (float_key 2 5 7 .kLinear) 1)
      ∧ get_range_around_index
          [float_key 1 0 0 .kHold, float_key 2 5 7 .kLinear, float_key 3 10 100 .kLinear]
          ((1 : ℕ) : ℤ)
        = some (RangeAroundIndex_spec
            [float_key 1 0 0 .kHold, float_key 2 5 7 .kLinear, float_key 3 10 100 .kLinear] 1) :=
  get_range_affected_by_keyframe_eq_spec
    [float_key 1 0 0 .kHold, float_key 2 5 7 .kLinear, float_key 3 10 100 .kLinear]
    (float_key 2 5 7 .kLinear) 1 (by simp [distinct_objects, float_key]) rfl

/-! ## Claims about a changed keyframe time -/

theorem eraseIdx_length_append (l : List NodeKeyframe) (k : NodeKeyframe) (r : List NodeKeyframe) :
    (l ++ k :: r).eraseIdx l.length = l ++ r := by
  induction l with
  | nil => rfl
  | cons a tl ih => simp [List.eraseIdx, ih]

theorem KeyframeTimeChanged_append (p : NodeInput) (l r : List NodeKeyframe) (k : NodeKeyframe)
    (hp : p.keyframes_ = l ++ k :: r) (hl : ∀ x ∈ l, x.ptr ≠ k.ptr) :
    (((∃ a, l.getLast? = some a ∧ a.time > k.time) ∨ (∃ b, r.head? = some b ∧ b.time < k.time)) →
        p.KeyframeTimeChanged k.ptr
          = (insert_keyframe_internal k (l ++ r)).bind fun ks =>
            (emit_range_affected_by_keyframe ks k).bind fun s =>
            some ({ p with keyframes_ := ks },
              [s, Signal.ValueChanged (bound_before l) (bound_after r)]))
      ∧ (¬ ((∃ a, l.getLast? = some a ∧ a.time > k.time)
            ∨ (∃ b, r.head? = some b ∧ b.time < k.time)) →
        p.KeyframeTimeChanged k.ptr
          = some (p, [Signal.ValueChanged (bound_before l) (bound_after r)])) := by
  have hidx : FindIndexOfKeyframeFromRawPtr (l ++ k :: r) k.ptr = (l.length : ℤ) :=
    FindIndex_append l k r hl
  have hgt : (l.length : ℤ) > -1 := by omega
  have hat : keyframes_at (l ++ k :: r) (l.length : ℤ) = some k := by
    rw [keyframes_at_nat, List.getElem?_append_right (le_refl _)]
    simp
  have hrange := get_range_around_index_append l k r
  have herase : (l ++ k :: r).eraseIdx l.length = l ++ r := eraseIdx_length_append l k r
  have hnext : keyframes_at (l ++ k :: r) ((l.length : ℤ) + 1) = r.head? := by
    rw [keyframes_at_nat_succ, getElem?_after]
  unfold NodeInput.KeyframeTimeChanged
  simp only [hp, hidx, hgt, if_true, hat, hrange, Option.some_bind, Int.toNat_ofNat, herase,
    hnext, emit_time_range]
  rcases nil_or_snoc l with rfl | ⟨l2, a, rfl⟩
  · cases r with
    | nil => simp
    | cons b r2 =>
      by_cases hb : b.time < k.time
      · simp [hb]
      · simp [hb]
  · have hpos : 0 < (l2 ++ [a]).length := by simp
    have hposz : ((l2 ++ [a]).length : ℤ) > 0 := by omega
    have hprev : keyframes_at (l2 ++ [a] ++ k :: r) (((l2 ++ [a]).length : ℤ) - 1) = some a := by
      rw [keyframes_at_nat_pred _ _ hpos, getElem?_before, if_pos hpos]
      simp
    simp only [hposz, if_true, hprev, Option.map_some', Option.some_bind]
    by_cases ha : a.time > k.time
    · simp [ha]
    · cases r with
      | nil =>
        have hlen : ¬ ((l2.length : ℤ) + 1 < (l2.length : ℤ) + 2 - 1) := by omega
        simp [ha, hlen]
      | cons b r2 =>
        have hlen : (l2.length : ℤ) + 1 < (l2.length : ℤ) + ((r2.length : ℤ) + 1 + 1 + 1) - 1 := by
          omega
        by_cases hb : b.time < k.time
        · simp [ha, hb, hlen]
        · simp [ha, hb, hlen]

/-- C10: take a strictly ascending sequence `l ++ k :: r` and change the time of `k` to a value
that differs from the time of every other keyframe.  If the new time lies beyond an immediate
neighbour, `KeyframeTimeChanged` re-sorts: the sequence holds the same keyframes, is strictly
ascending again, and exactly two value-changed ranges are emitted, first the range affected by the
keyframe at its new position, then the range around its old position.  Otherwise the state is
unchanged and only the range around the old position is emitted. -/
theorem KeyframeTimeChanged_resorts (p : NodeInput) (l r : List NodeKeyframe) (k : NodeKeyframe)
    (new_time : ℚ)
    (hs : strictly_ascending (l ++ k :: r)) (hd : distinct_objects (l ++ k :: r))
    (hfresh : ∀ x ∈ l ++ r, x.time ≠ new_time)
    (hp : p.keyframes_ = l ++ { k with time := new_time } :: r) :
    get_range_around_index (l ++ k :: r) (l.length : ℤ) = some ⟨bound_before l, bound_after r⟩
      ∧ (((∃ a, l.getLast? = some a ∧ a.time > new_time)
            ∨ (∃ b, r.head? = some b ∧ b.time < new_time)) →
          ∃ ks range,
            p.KeyframeTimeChanged k.ptr
                = some ({ p with keyframes_ := ks },
                    [Signal.ValueChanged range.in_ range.out_,
                     Signal.ValueChanged (bound_before l) (bound_after r)])
              ∧ get_range_affected_by_keyframe ks { k with time := new_time } = some range
              ∧ ks.Perm p.keyframes_
              ∧ strictly_ascending ks)
      ∧ (¬ ((∃ a, l.getLast? = some a ∧ a.time > new_time)
            ∨ (∃ b, r.head? = some b ∧ b.time < new_time)) →
          p.KeyframeTimeChanged k.ptr
            = some (p, [Signal.ValueChanged (bound_before l) (bound_after r)])) := by
  have hptr : ∀ x ∈ l ++ r, x.ptr ≠ k.ptr := ptr_fresh_of_distinct hd
  have hmain := KeyframeTimeChanged_append p l r { k with time := new_time } hp
    (fun x hx => hptr x (List.mem_append_left _ hx))
  refine ⟨get_range_around_index_append l k r, ?_, hmain.2⟩
  intro hbeyond
  obtain ⟨l2, r2, hlr, hins, hl2, hr2⟩ :=
    insert_keyframe_internal_spec { k with time := new_time } (l ++ r) hfresh
  have hsub : (l ++ r).Sublist (l ++ k :: r) :=
    List.Sublist.append (List.Sublist.refl l) (List.sublist_cons_self k r)
  have hs2 : strictly_ascending (l2 ++ r2) := by
    rw [← hlr]
    exact List.Pairwise.sublist hsub hs
  have hptr2 : ∀ x ∈ l2, x.ptr ≠ (({ k with time := new_time } : NodeKeyframe)).ptr := by
    intro x hx
    apply hptr x
    rw [hlr]
    exact List.mem_append_left _ hx
  have hrange := get_range_affected_by_keyframe_append l2 { k with time := new_time } r2 hptr2
  refine ⟨l2 ++ { k with time := new_time } :: r2, _, ?_, hrange, ?_,
    strictly_ascending_insert hs2 hl2 hr2⟩
  · have h := hmain.1 hbeyond
    rw [hins] at h
    simp only [Option.some_bind, emit_range_affected_by_keyframe, hrange, Option.map_some',
      emit_time_range] at h
    exact h
  · rw [hp]
    refine List.Perm.trans List.perm_middle ?_
    refine List.Perm.trans ?_ List.perm_middle.symm
    rw [hlr]

/-- C10 (witness): of the keyframes at `0`, `5`, `10` the middle one is moved to `15`, past its
right neighbour. -/
theorem KeyframeTimeChanged_resorts_witness :
    ∃ ks range,
      (float_input [float_key 1 0 0 .kLinear, float_key 2 15 7 .kLinear,
          float_key 3 10 100 .kLinear]).KeyframeTimeChanged 2
          = some ({ float_input [float_key 1 0 0 .kLinear, float_key 2 15 7 .kLinear,
                  float_key 3 10 100 .kLinear] with keyframes_ := ks },
              [Signal.ValueChanged range.in_ range.out_,
               Signal.ValueChanged (bound_before [float_key 1 0 0 .kLinear])
                 (bound_after [float_key 3 10 100 .kLinear])])
        ∧ get_range_affected_by_keyframe ks { float_key 2 5 7 .kLinear with time := 15 }
            = some range
        ∧ ks.Perm (float_input [float_key 1 0 0 .kLinear, float_key 2 15 7 .kLinear,
            float_key 3 10 100 .kLinear]).keyframes_
        ∧ strictly_ascending ks :=
  (KeyframeTimeChanged_resorts
    (float_input [float_key 1 0 0 .kLinear, float_key 2 15 7 .kLinear, float_key 3 10 100 .kLinear])
    [float_key 1 0 0 .kLinear] [float_key 3 10 100 .kLinear] (float_key 2 5 7 .kLinear) 15
    (by simp [strictly_ascending, float_key]; norm_num)
    (by simp [distinct_objects, float_key])
    (by simp [float_key])
    rfl).2.1
    (Or.inr ⟨float_key 3 10 100 .kLinear, rfl, by simp [float_key]; norm_num⟩)

/-! ## Invalidation soundness of insertion -/

/-- C8 (failing input): into the keyframes `(0, 0, Linear)`, `(10, 100, Linear)` of a keyframing
float parameter the keyframe `(-5, 7, Hold)` is inserted.  The value-changed range emitted is
`(-∞, 0]`, the time `5` lies after it, and yet the value at `5` changes from `50` to `7`. -/
theorem insert_hold_keyframe_changes_value_outside_range :
    (float_input [float_key 1 0 0 .kLinear, float_key 2 10 100 .kLinear]).insert_keyframe
        (float_key 3 (-5) 7 .kHold)
        = some (float_input [float_key 3 (-5) 7 .kHold, float_key 1 0 0 .kLinear,
              float_key 2 10 100 .kLinear],
            [Signal.KeyframeAdded (float_key 3 (-5) 7 .kHold),
             Signal.ValueChanged TimeBound.RATIONAL_MIN (TimeBound.finite 0)])
      ∧ (TimeRange.mk TimeBound.RATIONAL_MIN (TimeBound.finite 0)).outside 5
      ∧ (float_input [float_key 1 0 0 .kLinear, float_key 2 10 100 .kLinear]).get_value_at_time 5
        = .Double 50
      ∧ (float_input [float_key 3 (-5) 7 .kHold, float_key 1 0 0 .kLinear,
          float_key 2 10 100 .kLinear]).get_value_at_time 5 = .Double 7 := by
  refine ⟨?_, ?_, ?_, ?_⟩
  · have hins : insert_keyframe_internal (float_key 3 (-5) 7 .kHold)
        [float_key 1 0 0 .kLinear, float_key 2 10 100 .kLinear]
        = some [float_key 3 (-5) 7 .kHold, float_key 1 0 0 .kLinear,
            float_key 2 10 100 .kLinear] :=
      insert_keyframe_internal_append (float_key 3 (-5) 7 .kHold) []
        [float_key 1 0 0 .kLinear, float_key 2 10 100 .kLinear] (by simp)
        (by simp [float_key])
    have hrange := get_range_affected_by_keyframe_append [] (float_key 3 (-5) 7 .kHold)
      [float_key 1 0 0 .kLinear, float_key 2 10 100 .kLinear] (by simp)
    simp only [List.nil_append] at hrange
    simp only [NodeInput.insert_keyframe, float_input, NodeInput.is_keyframable, Bool.true_or,
      if_true, hins, Option.some_bind, emit_range_affected_by_keyframe, hrange, Option.map_some',
      emit_time_range]
    simp [bound_before_affected, bound_after, float_key]
  · simp [TimeRange.outside, TimeBound.later_than, TimeBound.earlier_than]
  · simp [float_input, float_key, NodeInput.get_value_at_time,
      NodeInput.is_using_standard_value, NodeInput.is_keyframing, get_value_at_time_loop,
      type_can_be_interpolated, interpolated_value, lerp, QVariant.toDouble]
    norm_num
  · simp [float_input, float_key, NodeInput.get_value_at_time,
      NodeInput.is_using_standard_value, NodeInput.is_keyframing, get_value_at_time_loop]
    norm_num

/-! ## Claims about removal and exact lookup -/

theorem removeOne_append (l : List NodeKeyframe) (key : NodeKeyframe) (r : List NodeKeyframe)
    (hl : ∀ x ∈ l, x.ptr ≠ key.ptr) : removeOne key (l ++ key :: r) = l ++ r := by
  induction l with
  | nil => simp [removeOne]
  | cons a tl ih =>
    have ha : a.ptr ≠ key.ptr := hl a (List.mem_cons_self _ _)
    simp [removeOne, ha, ih (fun x hx => hl x (List.mem_cons_of_mem _ hx))]

theorem strictly_ascending_remove {l r : List NodeKeyframe} {k : NodeKeyframe}
    (hs : strictly_ascending (l ++ k :: r)) : strictly_ascending (l ++ r) :=
  List.Pairwise.sublist
    (List.Sublist.append (List.Sublist.refl l) (List.sublist_cons_self k r)) hs

/-- C11: removing the keyframe `key` from a strictly ascending sequence `l ++ key :: r` of more
than one keyframe (of a keyframable parameter) yields the sequence `l ++ r`, one shorter and
strictly ascending, and emits first the keyframe-removed notification and then one value-changed
notification, whose range is `get_range_affected_by_keyframe(key)` on the sequence before the
removal. -/
theorem remove_keyframe_removes (p : NodeInput) (l r : List NodeKeyframe) (key : NodeKeyframe)
    (hp : p.keyframes_ = l ++ key :: r) (hable : p.keyframable_ = true)
    (hlen : p.keyframes_.length > 1)
    (hs : strictly_ascending p.keyframes_) (hd : distinct_objects p.keyframes_) :
    ∃ range,
      get_range_affected_by_keyframe p.keyframes_ key = some range
        ∧ p.remove_keyframe key
          = some ({ p with keyframes_ := l ++ r },
              [Signal.KeyframeRemoved key, Signal.ValueChanged range.in_ range.out_])
        ∧ strictly_ascending (l ++ r)
        ∧ (l ++ r).length + 1 = p.keyframes_.length := by
  rw [hp] at hs hd
  have hptr : ∀ x ∈ l, x.ptr ≠ key.ptr := fun x hx =>
    ptr_fresh_of_distinct hd x (List.mem_append_left _ hx)
  have hrange : get_range_affected_by_keyframe p.keyframes_ key
      = some ⟨bound_before_affected l key, bound_after r⟩ := by
    rw [hp]
    exact get_range_affected_by_keyframe_append l key r hptr
  have hguard : (p.is_keyframable && decide (p.keyframes_.length > 1)) = true := by
    simp [NodeInput.is_keyframable, hable, hlen]
  refine ⟨_, hrange, ?_, strictly_ascending_remove hs, ?_⟩
  · unfold NodeInput.remove_keyframe
    rw [if_pos hguard, hrange]
    simp only [Option.some_bind, emit_time_range]
    rw [hp, removeOne_append l key r hptr]
  · rw [hp]
    simp
    omega

/-- C11 (witness): removing the middle keyframe of the keyframes at `0`, `5`, `10`. -/
theorem remove_keyframe_removes_witness :
    ∃ range,
      get_range_affected_by_keyframe
          (float_input [float_key 1 0 0 .kLinear, float_key 2 5 7 .kLinear,
            float_key 3 10 100 .kLinear]).keyframes_ (float_key 2 5 7 .kLinear) = some range
        ∧ (float_input [float_key 1 0 0 .kLinear, float_key 2 5 7 .kLinear,
            float_key 3 10 100 .kLinear]).remove_keyframe (float_key 2 5 7 .kLinear)
          = some ({ float_input [float_key 1 0 0 .kLinear, float_key 2 5 7 .kLinear,
                  float_key 3 10 100 .kLinear] with
                keyframes_ := [float_key 1 0 0 .kLinear] ++ [float_key 3 10 100 .kLinear] },
              [Signal.KeyframeRemoved (float_key 2 5 7 .kLinear),
               Signal.ValueChanged range.in_ range.out_])
        ∧ strictly_ascending ([float_key 1 0 0 .kLinear] ++ [float_key 3 10 100 .kLinear])
        ∧ ([float_key 1 0 0 .kLinear] ++ [float_key 3 10 100 .kLinear]).length + 1
          = (float_input [float_key 1 0 0 .kLinear, float_key 2 5 7 .kLinear,
              float_key 3 10 100 .kLinear]).keyframes_.length :=
  remove_keyframe_removes
    (float_input [float_key 1 0 0 .kLinear, float_key 2 5 7 .kLinear, float_key 3 10 100 .kLinear])
    [float_key 1 0 0 .kLinear] [float_key 3 10 100 .kLinear] (float_key 2 5 7 .kLinear)
    rfl rfl (by simp [float_input])
    (by simp [strictly_ascending, float_input, float_key]; norm_num)
    (by simp [distinct_objects, float_input, float_key])

/-- C12 (counterexample): a keyframable parameter whose keyframing flag is false and that has two
keyframes passes the precondition check of `remove_keyframe`. -/
theorem remove_keyframe_permitted_without_keyframing :
    (still_input [float_key 1 0 0 .kLinear, float_key 2 10 100 .kLinear]).keyframing_ = false
      ∧ ((still_input [float_key 1 0 0 .kLinear, float_key 2 10 100 .kLinear]).remove_keyframe
          (float_key 1 0 0 .kLinear)).isSome = true := by
  refine ⟨rfl, ?_⟩
  obtain ⟨range, hrange⟩ := get_range_affected_by_keyframe_isSome
    [float_key 1 0 0 .kLinear, float_key 2 10 100 .kLinear] (float_key 1 0 0 .kLinear)
  simp [NodeInput.remove_keyframe, still_input, NodeInput.is_keyframable, hrange]

/-- C12 (amended): the precondition check of `remove_keyframe` passes if and only if the
parameter is keyframable and more than one keyframe is present. -/
theorem remove_keyframe_permitted_iff (p : NodeInput) (key : NodeKeyframe) :
    (p.remove_keyframe key).isSome = true
      ↔ (p.keyframable_ = true ∧ p.keyframes_.length > 1) := by
  obtain ⟨range, hrange⟩ := get_range_affected_by_keyframe_isSome p.keyframes_ key
  unfold NodeInput.remove_keyframe
  by_cases h : p.keyframable_ = true ∧ p.keyframes_.length > 1
  · have hguard : (p.is_keyframable && decide (p.keyframes_.length > 1)) = true := by
      simp [NodeInput.is_keyframable, h.1, h.2]
    rw [if_pos hguard, hrange]
    simp [h]
  · have hguard : ¬ (p.is_keyframable && decide (p.keyframes_.length > 1)) = true := by
      intro hg
      apply h
      simpa [NodeInput.is_keyframable] using hg
    rw [if_neg hguard]
    simp [h]

theorem get_keyframe_at_time_loop_some (time : ℚ) (ks : List NodeKeyframe)
    (found : NodeKeyframe) (h : get_keyframe_at_time_loop time ks = some found) :
    found ∈ ks ∧ found.time = time := by
  induction ks with
  | nil => simp [get_keyframe_at_time_loop] at h
  | cons k rest ih =>
    by_cases hk : k.time = time
    · simp only [get_keyframe_at_time_loop, hk, if_true, Option.some.injEq] at h
      subst h
      exact ⟨List.mem_cons_self _ _, hk⟩
    · simp only [get_keyframe_at_time_loop, hk, if_false] at h
      exact ⟨List.mem_cons_of_mem _ (ih h).1, (ih h).2⟩

theorem get_keyframe_at_time_loop_none (time : ℚ) (ks : List NodeKeyframe) :
    get_keyframe_at_time_loop time ks = none ↔ ∀ k ∈ ks, k.time ≠ time := by
  induction ks with
  | nil => simp [get_keyframe_at_time_loop]
  | cons k rest ih =>
    by_cases hk : k.time = time
    · simp [get_keyframe_at_time_loop, hk]
    · simp [get_keyframe_at_time_loop, hk, ih]

/-- C14 (counterexample): a parameter whose keyframing flag is false and that holds a keyframe at
time `0` answers `none` to `get_keyframe_at_time(0)`. -/
theorem get_keyframe_at_time_none_without_keyframing :
    float_key 1 0 7 .kLinear ∈ (still_input [float_key 1 0 7 .kLinear]).keyframes_
      ∧ (float_key 1 0 7 .kLinear).time = 0
      ∧ (still_input [float_key 1 0 7 .kLinear]).get_keyframe_at_time 0 = none := by
  refine ⟨by simp [still_input], rfl, ?_⟩
  simp [NodeInput.get_keyframe_at_time, NodeInput.is_using_standard_value,
    NodeInput.is_keyframing, still_input]

/-- C14 (amended): for a parameter whose keyframing flag is true, `get_keyframe_at_time(t)`
returns a keyframe of the sequence whose time is `t` whenever there is one, and returns none
exactly when no keyframe of the sequence has time `t`; for a parameter whose keyframing flag is
false it returns none. -/
theorem get_keyframe_at_time_spec (p : NodeInput) (t : ℚ) :
    (p.keyframing_ = true →
        ((∃ k ∈ p.keyframes_, k.time = t) →
            ∃ found, p.get_keyframe_at_time t = some found ∧ found ∈ p.keyframes_
              ∧ found.time = t)
          ∧ (p.get_keyframe_at_time t = none ↔ ∀ k ∈ p.keyframes_, k.time ≠ t))
      ∧ (p.keyframing_ = false → p.get_keyframe_at_time t = none) := by
  constructor
  · intro hk
    have hiff : p.get_keyframe_at_time t = none ↔ ∀ k ∈ p.keyframes_, k.time ≠ t := by
      unfold NodeInput.get_keyframe_at_time
      by_cases hstd : p.is_using_standard_value = true
      · have hempty : p.keyframes_ = [] := by
          simpa [NodeInput.is_using_standard_value, NodeInput.is_keyframing, hk] using hstd
        simp [hstd, hempty]
      · rw [if_neg hstd]
        exact get_keyframe_at_time_loop_none t p.keyframes_
    refine ⟨?_, hiff⟩
    rintro ⟨k, hmem, hkt⟩
    cases hres : p.get_keyframe_at_time t with
    | none => exact absurd hkt (hiff.mp hres k hmem)
    | some found =>
      refine ⟨found, rfl, ?_⟩
      unfold NodeInput.get_keyframe_at_time at hres
      by_cases hstd : p.is_using_standard_value = true
      · simp [hstd] at hres
      · rw [if_neg hstd] at hres
        exact get_keyframe_at_time_loop_some t p.keyframes_ found hres
  · intro hk
    simp [NodeInput.get_keyframe_at_time, NodeInput.is_using_standard_value,
      NodeInput.is_keyframing, hk]

/-- C14 (witness): the amended statement at a keyframing parameter with a keyframe at `5`, and at
a parameter that is not keyframing. -/
theorem get_keyframe_at_time_spec_witness :
    (∃ found, (float_input [float_key 1 0 0 .kLinear, float_key 2 5 7 .kLinear]).get_keyframe_at_time
          5 = some found
        ∧ found ∈ (float_input [float_key 1 0 0 .kLinear, float_key 2 5 7 .kLinear]).keyframes_
        ∧ found.time = 5)
      ∧ (still_input [float_key 1 0 7 .kLinear]).get_keyframe_at_time 0 = none :=
  ⟨((get_keyframe_at_time_spec
        (float_input [float_key 1 0 0 .kLinear, float_key 2 5 7 .kLinear]) 5).1 rfl).1
      ⟨float_key 2 5 7 .kLinear, by simp [float_input], rfl⟩,
   (get_keyframe_at_time_spec (still_input [float_key 1 0 7 .kLinear]) 0).2 rfl⟩

/-- C20: if the time of a keyframe of a strictly ascending sequence is changed to exactly the time
of one of its immediate neighbours, `KeyframeTimeChanged` succeeds without re-sorting: the state
is unchanged, the sequence now holds two adjacent keyframes with the same time and is no longer
strictly ascending, and the only signal is the range around the keyframe's index. -/
theorem KeyframeTimeChanged_equal_neighbour (p : NodeInput) (l r : List NodeKeyframe)
    (k : NodeKeyframe) (new_time : ℚ)
    (hs : strictly_ascending (l ++ k :: r)) (hd : distinct_objects (l ++ k :: r))
    (hnb : (∃ a, l.getLast? = some a ∧ a.time = new_time)
      ∨ (∃ b, r.head? = some b ∧ b.time = new_time))
    (hp : p.keyframes_ = l ++ { k with time := new_time } :: r) :
    p.KeyframeTimeChanged k.ptr
        = some (p, [Signal.ValueChanged (bound_before l) (bound_after r)])
      ∧ get_range_around_index p.keyframes_ (l.length : ℤ)
        = some ⟨bound_before l, bound_after r⟩
      ∧ (∃ l2 x y r2, p.keyframes_ = l2 ++ x :: y :: r2 ∧ x.time = y.time)
      ∧ ¬ strictly_ascending p.keyframes_ := by
  have hptr : ∀ x ∈ l ++ r, x.ptr ≠ k.ptr := ptr_fresh_of_distinct hd
  have hmain := KeyframeTimeChanged_append p l r { k with time := new_time } hp
    (fun x hx => hptr x (List.mem_append_left _ hx))
  have hlk : ∀ a, l.getLast? = some a → a.time < k.time := by
    intro a ha
    have hmem : a ∈ l := List.mem_of_getLast?_eq_some ha
    exact (List.pairwise_append.mp hs).2.2 a hmem k (List.mem_cons_self _ _)
  have hkr : ∀ b, r.head? = some b → k.time < b.time := by
    intro b hb
    have hmem : b ∈ r := List.mem_of_mem_head? hb
    exact (List.pairwise_cons.mp (List.pairwise_append.mp hs).2.1).1 b hmem
  have hnot : ¬ ((∃ a, l.getLast? = some a ∧ a.time > new_time)
      ∨ (∃ b, r.head? = some b ∧ b.time < new_time)) := by
    rintro (⟨a, ha, hgt⟩ | ⟨b, hb, hlt⟩)
    · rcases hnb with ⟨a2, ha2, heq⟩ | ⟨b2, hb2, heq⟩
      · rw [ha] at ha2
        cases ha2
        exact absurd heq (ne_of_gt hgt)
      · have h1 := hlk a ha
        have h2 := hkr b2 hb2
        rw [heq] at h2
        exact absurd (lt_trans h1 h2) (not_lt.mpr (le_of_lt hgt))
    · rcases hnb with ⟨a2, ha2, heq⟩ | ⟨b2, hb2, heq⟩
      · have h1 := hlk a2 ha2
        have h2 := hkr b hb
        rw [heq] at h1
        exact absurd (lt_trans h1 h2) (not_lt.mpr (le_of_lt hlt))
      · rw [hb] at hb2
        cases hb2
        exact absurd heq (ne_of_lt hlt)
  have hadj : ∃ l2 x y r2, p.keyframes_ = l2 ++ x :: y :: r2 ∧ x.time = y.time := by
    rcases hnb with ⟨a, ha, heq⟩ | ⟨b, hb, heq⟩
    · obtain ⟨l2, hl2⟩ := List.getLast?_eq_some_iff.mp ha
      refine ⟨l2, a, { k with time := new_time }, r, ?_, heq⟩
      rw [hp, hl2]
      simp
    · cases r with
      | nil => simp at hb
      | cons b2 r2 =>
        simp only [List.head?_cons, Option.some.injEq] at hb
        subst hb
        exact ⟨l, { k with time := new_time }, b2, r2, hp, heq.symm⟩
  refine ⟨hmain.2 hnot, ?_, hadj, ?_⟩
  · rw [hp]
    exact get_range_around_index_append l { k with time := new_time } r
  · intro hasc
    obtain ⟨l2, x, y, r2, hlist, hxy⟩ := hadj
    rw [hlist] at hasc
    have h1 := (List.pairwise_cons.mp (List.pairwise_append.mp hasc).2.1).1 y
      (List.mem_cons_self _ _)
    exact absurd hxy (ne_of_lt h1)

/-- C20 (witness): of the keyframes at `0`, `5`, `10` the middle one is moved to `10`, the time of
its right neighbour. -/
theorem KeyframeTimeChanged_equal_neighbour_witness :
    (float_input [float_key 1 0 0 .kLinear, float_key 2 10 7 .kLinear,
        float_key 3 10 100 .kLinear]).KeyframeTimeChanged 2
        = some (float_input [float_key 1 0 0 .kLinear, float_key 2 10 7 .kLinear,
              float_key 3 10 100 .kLinear],
            [Signal.ValueChanged (bound_before [float_key 1 0 0 .kLinear])
              (bound_after [float_key 3 10 100 .kLinear])])
      ∧ get_range_around_index
          (float_input [float_key 1 0 0 .kLinear, float_key 2 10 7 .kLinear,
            float_key 3 10 100 .kLinear]).keyframes_
          (([float_key 1 0 0 .kLinear] : List NodeKeyframe).length : ℤ)
        = some ⟨bound_before [float_key 1 0 0 .kLinear],
            bound_after [float_key 3 10 100 .kLinear]⟩
      ∧ (∃ l2 x y r2,
          (float_input [float_key 1 0 0 .kLinear, float_key 2 10 7 .kLinear,
            float_key 3 10 100 .kLinear]).keyframes_ = l2 ++ x :: y :: r2 ∧ x.time = y.time)
      ∧ ¬ strictly_ascending
          (float_input [float_key 1 0 0 .kLinear, float_key 2 10 7 .kLinear,
            float_key 3 10 100 .kLinear]).keyframes_ :=
  KeyframeTimeChanged_equal_neighbour
    (float_input [float_key 1 0 0 .kLinear, float_key 2 10 7 .kLinear, float_key 3 10 100 .kLinear])
    [float_key 1 0 0 .kLinear] [float_key 3 10 100 .kLinear] (float_key 2 5 7 .kLinear) 10
    (by simp [strictly_ascending, float_key]; norm_num)
    (by simp [distinct_objects, float_key])
    (Or.inr ⟨float_key 3 10 100 .kLinear, rfl, rfl⟩)
    rfl

/-! ## Claims about interpolation: colours and Bezier keyframes -/

theorem get_value_at_time_loop_all_later (data_type : DataType) (standard_value : QVariant)
    (time : ℚ) (ks : List NodeKeyframe) (hinterp : type_can_be_interpolated data_type = true)
    (hlater : ∀ x ∈ ks, time < x.time) :
    get_value_at_time_loop data_type standard_value time ks = standard_value := by
  induction ks with
  | nil => rfl
  | cons before tl ih =>
    cases tl with
    | nil => rfl
    | cons after rest =>
      have hb : time < before.time := hlater before (List.mem_cons_self _ _)
      have h1 : ¬ (before.time = time ∨ type_can_be_interpolated data_type = false
          ∨ (before.time < time ∧ before.type = .kHold)) := by
        rintro (h | h | h)
        · exact absurd h (ne_of_gt hb)
        · rw [hinterp] at h
          exact absurd h (by simp)
        · exact absurd h.1 (not_lt.mpr (le_of_lt hb))
      have h2 : ¬ (before.time < time ∧ after.time > time) := fun h =>
        absurd h.1 (not_lt.mpr (le_of_lt hb))
      rw [get_value_at_time_loop, if_neg h1, if_neg h2]
      exact ih (fun x hx => hlater x (List.mem_cons_of_mem _ hx))

theorem get_value_at_time_loop_skip (data_type : DataType) (standard_value : QVariant)
    (time : ℚ) (l : List NodeKeyframe) (before : NodeKeyframe) (rest : List NodeKeyframe)
    (hinterp : type_can_be_interpolated data_type = true)
    (hl : ∀ x ∈ l, x.time < time ∧ x.type ≠ .kHold) (hb : before.time < time) :
    get_value_at_time_loop data_type standard_value time (l ++ before :: rest)
      = get_value_at_time_loop data_type standard_value time (before :: rest) := by
  induction l with
  | nil => rfl
  | cons x tl ih =>
    have hx := hl x (List.mem_cons_self _ _)
    have htl : ∀ y ∈ tl, y.time < time ∧ y.type ≠ .kHold := fun y hy =>
      hl y (List.mem_cons_of_mem _ hy)
    have h1 : ¬ (x.time = time ∨ type_can_be_interpolated data_type = false
        ∨ (x.time < time ∧ x.type = .kHold)) := by
      rintro (h | h | h)
      · exact absurd h (ne_of_lt hx.1)
      · rw [hinterp] at h
        exact absurd h (by simp)
      · exact hx.2 h.2
    cases tl with
    | nil =>
      have h2 : ¬ (x.time < time ∧ before.time > time) := fun h =>
        absurd h.2 (not_lt.mpr (le_of_lt hb))
      simp only [List.cons_append, List.nil_append]
      rw [get_value_at_time_loop, if_neg h1, if_neg h2]
    | cons y tl2 =>
      have hy := htl y (List.mem_cons_self _ _)
      have h2 : ¬ (x.time < time ∧ y.time > time) := fun h =>
        absurd h.2 (not_lt.mpr (le_of_lt hy.1))
      have ih2 := ih htl
      simp only [List.cons_append] at ih2 ⊢
      rw [get_value_at_time_loop, if_neg h1, if_neg h2]
      exact ih2

theorem get_value_at_time_between (p : NodeInput) (l rest : List NodeKeyframe)
    (before after : NodeKeyframe) (t : ℚ)
    (hk : p.keyframing_ = true) (hinterp : type_can_be_interpolated p.data_type_ = true)
    (hp : p.keyframes_ = l ++ before :: after :: rest) (hs : strictly_ascending p.keyframes_)
    (hhold : ∀ x ∈ l, x.type ≠ .kHold) (h1 : before.time < t) (h2 : t < after.time) :
    p.get_value_at_time t
      = get_value_at_time_loop p.data_type_ p.standard_value_ t (before :: after :: rest) := by
  rw [hp] at hs
  have hlt : ∀ x ∈ l, x.time < before.time := fun x hx =>
    (List.pairwise_append.mp hs).2.2 x hx before (List.mem_cons_self _ _)
  have hne : l ++ before :: after :: rest ≠ [] := by simp
  obtain ⟨first, hfirst⟩ : ∃ first, (l ++ before :: after :: rest).head? = some first := by
    cases l <;> simp
  obtain ⟨last, hlast⟩ : ∃ last, (l ++ before :: after :: rest).getLast? = some last :=
    ⟨_, List.getLast?_eq_getLast _ hne⟩
  have hfirst_le : first.time ≤ before.time := by
    cases l with
    | nil =>
      simp only [List.nil_append, List.head?_cons, Option.some.injEq] at hfirst
      rw [← hfirst]
    | cons x tl =>
      simp only [List.cons_append, List.head?_cons, Option.some.injEq] at hfirst
      rw [← hfirst]
      exact le_of_lt (hlt x (List.mem_cons_self _ _))
  have hlast_ge : after.time ≤ last.time := by
    have e : l ++ before :: after :: rest = (l ++ [before]) ++ after :: rest := by simp
    rw [e, List.getLast?_append_of_ne_nil _ (by simp)] at hlast
    cases rest with
    | nil =>
      simp only [List.getLast?_singleton, Option.some.injEq] at hlast
      rw [← hlast]
    | cons c rest2 =>
      rw [List.getLast?_cons_cons] at hlast
      have hmem : last ∈ c :: rest2 := List.mem_of_getLast?_eq_some hlast
      have hs2 := (List.pairwise_append.mp hs).2.1
      exact le_of_lt ((List.pairwise_cons.mp (List.pairwise_cons.mp hs2).2).1 last hmem)
  rw [get_value_at_time_of_keyframing p t first last hk (by rw [hp]; exact hfirst)
    (by rw [hp]; exact hlast)]
  rw [if_neg (not_le.mpr (lt_of_le_of_lt hfirst_le h1)),
    if_neg (not_le.mpr (lt_of_lt_of_le h2 hlast_ge)), hp]
  exact get_value_at_time_loop_skip p.data_type_ p.standard_value_ t l before (after :: rest)
    hinterp (fun x hx => ⟨lt_trans (hlt x hx) h1, hhold x hx⟩) h1

/-- C19: for a keyframing parameter of an interpolable data type with a strictly ascending
sequence, an adjacent pair `(before, after)` with `after` of type Bezier and `before` of type
Bezier or Linear, and no Hold keyframe before `before`: at every `t` strictly between the two
times `get_value_at_time(t)` is the parameter's standard value. -/
theorem get_value_at_time_bezier_falls_back (p : NodeInput) (l rest : List NodeKeyframe)
    (before after : NodeKeyframe) (t : ℚ)
    (hk : p.keyframing_ = true) (hinterp : type_can_be_interpolated p.data_type_ = true)
    (hp : p.keyframes_ = l ++ before :: after :: rest) (hs : strictly_ascending p.keyframes_)
    (hhold : ∀ x ∈ l, x.type ≠ .kHold)
    (hafter : after.type = .kBezier) (hbefore : before.type = .kBezier ∨ before.type = .kLinear)
    (h1 : before.time < t) (h2 : t < after.time) :
    p.get_value_at_time t = p.standard_value_ := by
  rw [get_value_at_time_between p l rest before after t hk hinterp hp hs hhold h1 h2]
  have hnh : before.type ≠ .kHold := by
    rcases hbefore with h | h <;> rw [h] <;> simp
  have hc1 : ¬ (before.time = t ∨ type_can_be_interpolated p.data_type_ = false
      ∨ (before.time < t ∧ before.type = .kHold)) := by
    rintro (h | h | h)
    · exact absurd h (ne_of_lt h1)
    · rw [hinterp] at h
      exact absurd h (by simp)
    · exact hnh h.2
  have hc2 : before.time < t ∧ after.time > t := ⟨h1, h2⟩
  have hlater : ∀ x ∈ after :: rest, t < x.time := by
    intro x hx
    rw [hp] at hs
    have hs2 := (List.pairwise_cons.mp (List.pairwise_append.mp hs).2.1).2
    rcases List.mem_cons.mp hx with rfl | hx
    · exact h2
    · exact lt_trans h2 ((List.pairwise_cons.mp hs2).1 x hx)
  have htail := get_value_at_time_loop_all_later p.data_type_ p.standard_value_ t
    (after :: rest) hinterp hlater
  rw [get_value_at_time_loop, if_neg hc1, if_pos hc2]
  rcases hbefore with hb | hb
  · rw [if_pos ⟨hb, hafter⟩]
    exact htail
  · have hnb : ¬ (before.type = .kBezier ∧ after.type = .kBezier) := by
      rw [hb]
      simp
    rw [if_neg hnb, if_pos ⟨hb, hafter⟩]
    exact htail

/-- C19 (witness): keyframes `(0, 0, Linear)`, `(10, 100, Bezier)` give the standard value `42`
at `t = 5`. -/
theorem get_value_at_time_bezier_falls_back_witness :
    (float_input [float_key 1 0 0 .kLinear, float_key 2 10 100 .kBezier]).get_value_at_time 5
      = .Double 42 :=
  get_value_at_time_bezier_falls_back
    (float_input [float_key 1 0 0 .kLinear, float_key 2 10 100 .kBezier]) [] []
    (float_key 1 0 0 .kLinear) (float_key 2 10 100 .kBezier) 5 rfl rfl rfl
    (by simp [strictly_ascending, float_input, float_key]) (by simp) rfl (Or.inr rfl)
    (by simp [float_key]) (by simp [float_key]; norm_num)

/-- C18 (failing input): a keyframing colour parameter with the keyframes
`(0, black, Linear)`, `(10, white, Linear)` has at `t = 5` the value black of the keyframe
before, not the component-wise interpolation of the two colours at fraction `(5 - 0) / (10 - 0)`,
which is the grey `(1/2, 1/2, 1/2, 1)`. -/
theorem get_value_at_time_color_not_interpolated :
    strictly_ascending
        [⟨1, 0, .Color 0 0 0 1, .kLinear⟩, ⟨2, 10, .Color 1 1 1 1, .kLinear⟩]
      ∧ (color_input [⟨1, 0, .Color 0 0 0 1, .kLinear⟩,
          ⟨2, 10, .Color 1 1 1 1, .kLinear⟩]).get_value_at_time 5 = .Color 0 0 0 1
      ∧ QVariant.Color (lerp 0 1 ((5 - 0) / (10 - 0))) (lerp 0 1 ((5 - 0) / (10 - 0)))
          (lerp 0 1 ((5 - 0) / (10 - 0))) (lerp 1 1 ((5 - 0) / (10 - 0)))
        = .Color (1 / 2) (1 / 2) (1 / 2) 1
      ∧ QVariant.Color 0 0 0 1 ≠ .Color (1 / 2) (1 / 2) (1 / 2) 1 := by
  refine ⟨?_, ?_, ?_, ?_⟩
  · simp [strictly_ascending]
  · simp [color_input, NodeInput.get_value_at_time, NodeInput.is_using_standard_value,
      NodeInput.is_keyframing, get_value_at_time_loop, type_can_be_interpolated,
      interpolated_value]
    norm_num
  · simp [lerp]
    norm_num
  · simp

/-! ## Claims about the closest keyframe -/

theorem time_le_of_head {ks : List NodeKeyframe} {first : NodeKeyframe}
    (hs : strictly_ascending ks) (hf : ks.head? = some first) :
    ∀ x ∈ ks, first.time ≤ x.time := by
  cases ks with
  | nil => simp at hf
  | cons a tl =>
    simp only [List.head?_cons, Option.some.injEq] at hf
    subst hf
    intro x hx
    rcases List.mem_cons.mp hx with rfl | hx
    · exact le_refl _
    · exact le_of_lt ((List.pairwise_cons.mp hs).1 x hx)

theorem time_le_of_last {ks : List NodeKeyframe} {last : NodeKeyframe}
    (hs : strictly_ascending ks) (hl : ks.getLast? = some last) :
    ∀ x ∈ ks, x.time ≤ last.time := by
  obtain ⟨init, hinit⟩ := List.getLast?_eq_some_iff.mp hl
  subst hinit
  intro x hx
  rcases List.mem_append.mp hx with hx | hx
  · exact le_of_lt ((List.pairwise_append.mp hs).2.2 x hx last (List.mem_singleton_self _))
  · rw [List.mem_singleton.mp hx]

theorem abs_time_of_le {a t : ℚ} (h : a ≤ t) : |a - t| = t - a := by
  rw [abs_of_nonpos (by linarith)]
  ring

theorem abs_time_of_ge {a t : ℚ} (h : t ≤ a) : |a - t| = a - t :=
  abs_of_nonneg (by linarith)

theorem get_closest_keyframe_to_time_loop_spec (t : ℚ) (tl : List NodeKeyframe) :
    ∀ prev : NodeKeyframe, strictly_ascending (prev :: tl) → prev.time ≤ t →
      (∃ y ∈ tl, t ≤ y.time) →
      ∃ k, get_closest_keyframe_to_time_loop t (prev :: tl) = some k
        ∧ k ∈ prev :: tl
        ∧ (∀ x ∈ prev :: tl, |k.time - t| ≤ |x.time - t|)
        ∧ (∀ x ∈ prev :: tl, |x.time - t| = |k.time - t| → k.time ≤ x.time) := by
  induction tl with
  | nil =>
    intro prev _ _ hex
    obtain ⟨y, hy, _⟩ := hex
    simp at hy
  | cons next rest ih =>
    intro prev hs hprev hex
    have hpn : prev.time < next.time := (List.pairwise_cons.mp hs).1 next (List.mem_cons_self _ _)
    have hs2 : strictly_ascending (next :: rest) := (List.pairwise_cons.mp hs).2
    have hrest : ∀ x ∈ rest, next.time < x.time := (List.pairwise_cons.mp hs2).1
    by_cases hnext : next.time ≥ t
    · have hcond : prev.time ≤ t ∧ next.time ≥ t := ⟨hprev, hnext⟩
      have hap : |prev.time - t| = t - prev.time := abs_time_of_le hprev
      have han : |next.time - t| = next.time - t := abs_time_of_ge hnext
      have har : ∀ x ∈ rest, |x.time - t| = x.time - t := fun x hx =>
        abs_time_of_ge (le_trans hnext (le_of_lt (hrest x hx)))
      by_cases hcloser : next.time - t < t - prev.time
      · refine ⟨next, ?_, by simp, ?_, ?_⟩
        · rw [get_closest_keyframe_to_time_loop, if_pos hcond, if_pos hcloser]
        · intro x hx
          rcases List.mem_cons.mp hx with rfl | hx
          · rw [hap, han]
            exact le_of_lt hcloser
          · rcases List.mem_cons.mp hx with rfl | hx
            · exact le_refl _
            · rw [han, har x hx]
              linarith [hrest x hx]
        · intro x hx htie
          rcases List.mem_cons.mp hx with rfl | hx
          · rw [hap, han] at htie
            linarith
          · rcases List.mem_cons.mp hx with rfl | hx
            · exact le_refl _
            · exact le_of_lt (hrest x hx)
      · refine ⟨prev, ?_, by simp, ?_, ?_⟩
        · rw [get_closest_keyframe_to_time_loop, if_pos hcond, if_neg hcloser]
        · intro x hx
          rcases List.mem_cons.mp hx with rfl | hx
          · exact le_refl _
          · rcases List.mem_cons.mp hx with rfl | hx
            · rw [hap, han]
              exact not_lt.mp hcloser
            · rw [hap, har x hx]
              linarith [hrest x hx, not_lt.mp hcloser]
        · intro x hx _
          rcases List.mem_cons.mp hx with rfl | hx
          · exact le_refl _
          · exact le_of_lt ((List.pairwise_cons.mp hs).1 x hx)
    · have hlt : next.time < t := not_le.mp hnext
      have hcond : ¬ (prev.time ≤ t ∧ next.time ≥ t) := fun h => hnext h.2
      have hex2 : ∃ y ∈ rest, t ≤ y.time := by
        obtain ⟨y, hy, hty⟩ := hex
        rcases List.mem_cons.mp hy with rfl | hy
        · exact absurd hty (not_le.mpr hlt)
        · exact ⟨y, hy, hty⟩
      obtain ⟨k, hk, hmem, hmin, htie⟩ := ih next hs2 (le_of_lt hlt) hex2
      have hap : |prev.time - t| = t - prev.time := abs_time_of_le hprev
      have han : |next.time - t| = t - next.time := abs_time_of_le (le_of_lt hlt)
      have hkn : |k.time - t| ≤ |next.time - t| := hmin next (List.mem_cons_self _ _)
      refine ⟨k, ?_, List.mem_cons_of_mem _ hmem, ?_, ?_⟩
      · rw [get_closest_keyframe_to_time_loop, if_neg hcond]
        exact hk
      · intro x hx
        rcases List.mem_cons.mp hx with rfl | hx
        · rw [hap]
          rw [han] at hkn
          linarith
        · exact hmin x hx
      · intro x hx hxt
        rcases List.mem_cons.mp hx with rfl | hx
        · rw [hap] at hxt
          rw [han, ← hxt] at hkn
          linarith
        · exact htie x hx hxt

/-- C13: for a keyframing parameter with a non-empty strictly ascending keyframe sequence and
every time `t`, `get_closest_keyframe_to_time(t)` returns a keyframe of the sequence whose
distance `|k.time - t|` is minimal over the sequence, the earlier one of two that are equally
close; it is the first keyframe for `t ≤ first.time` and the last keyframe for
`t ≥ last.time`. -/
theorem get_closest_keyframe_to_time_spec (p : NodeInput) (first last : NodeKeyframe) (t : ℚ)
    (hk : p.keyframing_ = true) (hs : strictly_ascending p.keyframes_)
    (hf : p.keyframes_.head? = some first) (hl : p.keyframes_.getLast? = some last) :
    ∃ k, p.get_closest_keyframe_to_time t = some k
      ∧ k ∈ p.keyframes_
      ∧ (∀ x ∈ p.keyframes_, |k.time - t| ≤ |x.time - t|)
      ∧ (∀ x ∈ p.keyframes_, |x.time - t| = |k.time - t| → k.time ≤ x.time)
      ∧ (t ≤ first.time → k = first)
      ∧ (t ≥ last.time → k = last) := by
  have hne : p.keyframes_ ≠ [] := by
    intro h
    rw [h] at hf
    simp at hf
  have hstd : p.is_using_standard_value = false := by
    simp [NodeInput.is_using_standard_value, NodeInput.is_keyframing, hk, hne]
  have hunfold : p.get_closest_keyframe_to_time t
      = if t ≤ first.time then some first
        else if t ≥ last.time then some last
        else get_closest_keyframe_to_time_loop t p.keyframes_ := by
    simp only [NodeInput.get_closest_keyframe_to_time, hstd, hf, hl]
    simp
  have hfirst_mem : first ∈ p.keyframes_ := List.mem_of_mem_head? hf
  have hlast_mem : last ∈ p.keyframes_ := List.mem_of_getLast?_eq_some hl
  have hge := time_le_of_head hs hf
  have hle := time_le_of_last hs hl
  rw [hunfold]
  by_cases h1 : t ≤ first.time
  · rw [if_pos h1]
    refine ⟨first, rfl, hfirst_mem, ?_, ?_, fun _ => rfl, ?_⟩
    · intro x hx
      rw [abs_time_of_ge h1, abs_time_of_ge (le_trans h1 (hge x hx))]
      linarith [hge x hx]
    · intro x hx _
      exact hge x hx
    · intro h2
      rcases head_last_of_strictly_ascending hs hf hl with heq | hlt
      · exact heq
      · exact absurd (lt_of_lt_of_le hlt h2) (not_lt.mpr h1)
  · rw [if_neg h1]
    by_cases h2 : t ≥ last.time
    · rw [if_pos h2]
      refine ⟨last, rfl, hlast_mem, ?_, ?_, fun h => absurd h h1, fun _ => rfl⟩
      · intro x hx
        rw [abs_time_of_le h2, abs_time_of_le (le_trans (hle x hx) h2)]
        linarith [hle x hx]
      · intro x hx htie
        rw [abs_time_of_le h2, abs_time_of_le (le_trans (hle x hx) h2)] at htie
        linarith
    · rw [if_neg h2]
      have hft : first.time < t := not_le.mp h1
      have htl : t < last.time := not_le.mp h2
      cases hks : p.keyframes_ with
      | nil => exact absurd hks hne
      | cons a tl =>
        rw [hks] at hf hs hlast_mem
        simp only [List.head?_cons, Option.some.injEq] at hf
        subst hf
        have hlast_tl : last ∈ tl := by
          rcases List.mem_cons.mp hlast_mem with h | h
          · rw [h] at htl
            exact absurd (lt_trans hft htl) (lt_irrefl _)
          · exact h
        obtain ⟨k, hk2, hmem, hmin, htie⟩ :=
          get_closest_keyframe_to_time_loop_spec t tl a hs (le_of_lt hft)
            ⟨last, hlast_tl, le_of_lt htl⟩
        exact ⟨k, hk2, hmem, hmin, htie, fun h => absurd h h1, fun h => absurd h h2⟩

/-- C13 (witness): of the keyframes at `0` and `10`, the time `5` is equally close to both and
the query returns a keyframe that is no later than either. -/
theorem get_closest_keyframe_to_time_spec_witness :
    ∃ k, (float_input [float_key 1 0 0 .kLinear, float_key 2 10 100 .kLinear]).get_closest_keyframe_to_time
          5 = some k
      ∧ k ∈ (float_input [float_key 1 0 0 .kLinear, float_key 2 10 100 .kLinear]).keyframes_
      ∧ (∀ x ∈ (float_input [float_key 1 0 0 .kLinear, float_key 2 10 100 .kLinear]).keyframes_,
          |k.time - 5| ≤ |x.time - 5|)
      ∧ (∀ x ∈ (float_input [float_key 1 0 0 .kLinear, float_key 2 10 100 .kLinear]).keyframes_,
          |x.time - 5| = |k.time - 5| → k.time ≤ x.time)
      ∧ ((5 : ℚ) ≤ (float_key 1 0 0 .kLinear).time → k = float_key 1 0 0 .kLinear)
      ∧ ((5 : ℚ) ≥ (float_key 2 10 100 .kLinear).time → k = float_key 2 10 100 .kLinear) :=
  get_closest_keyframe_to_time_spec
    (float_input [float_key 1 0 0 .kLinear, float_key 2 10 100 .kLinear])
    (float_key 1 0 0 .kLinear) (float_key 2 10 100 .kLinear) 5 rfl
    (by simp [strictly_ascending, float_input, float_key]) rfl rfl

/-! ## Claims about copying -/

theorem content_copy_keyframes (alloc : ℕ → ℕ) (ks : List NodeKeyframe) :
    ∀ i, (copy_keyframes alloc i ks).map NodeKeyframe.content = ks.map NodeKeyframe.content := by
  induction ks with
  | nil =>
    intro i
    rfl
  | cons k rest ih =>
    intro i
    simp only [copy_keyframes, List.map_cons, ih (i + 1)]
    rfl

theorem content_eq {a b : NodeKeyframe} (h : a.content = b.content) :
    a.time = b.time ∧ a.value = b.value ∧ a.type = b.type := by
  simp only [NodeKeyframe.content, Prod.mk.injEq] at h
  exact h

theorem get_value_at_time_loop_congr (data_type : DataType) (standard_value : QVariant)
    (time : ℚ) (ks1 : List NodeKeyframe) :
    ∀ ks2 : List NodeKeyframe, ks1.map NodeKeyframe.content = ks2.map NodeKeyframe.content →
      get_value_at_time_loop data_type standard_value time ks1
        = get_value_at_time_loop data_type standard_value time ks2 := by
  induction ks1 with
  | nil =>
    intro ks2 h
    cases ks2 with
    | nil => rfl
    | cons b tl => simp at h
  | cons a tl1 ih =>
    intro ks2 h
    cases ks2 with
    | nil => simp at h
    | cons b tl2 =>
      simp only [List.map_cons, List.cons.injEq] at h
      obtain ⟨hab, htl⟩ := h
      obtain ⟨ht, hv, hty⟩ := content_eq hab
      cases tl1 with
      | nil =>
        cases tl2 with
        | nil => rfl
        | cons b2 tl3 => simp at htl
      | cons a2 tl3 =>
        cases tl2 with
        | nil => simp at htl
        | cons b2 tl4 =>
          have htl2 := htl
          simp only [List.map_cons, List.cons.injEq] at htl2
          obtain ⟨ht2, _, hty2⟩ := content_eq htl2.1
          have hrec := ih (b2 :: tl4) htl
          have hinterp : interpolated_value data_type a a2 time
              = interpolated_value data_type b b2 time := by
            obtain ⟨_, hv2, _⟩ := content_eq htl2.1
            simp only [interpolated_value, ht, hv, ht2, hv2]
          rw [get_value_at_time_loop, get_value_at_time_loop, ht, hv, hty, ht2, hty2, hrec,
            hinterp]

theorem get_value_at_time_congr (p q : NodeInput) (t : ℚ)
    (hdt : p.data_type_ = q.data_type_) (hsv : p.standard_value_ = q.standard_value_)
    (hkf : p.keyframing_ = q.keyframing_)
    (hks : p.keyframes_.map NodeKeyframe.content = q.keyframes_.map NodeKeyframe.content) :
    p.get_value_at_time t = q.get_value_at_time t := by
  have hloop := get_value_at_time_loop_congr p.data_type_ p.standard_value_ t p.keyframes_
    q.keyframes_ hks
  have hhead : p.keyframes_.head?.map NodeKeyframe.content
      = q.keyframes_.head?.map NodeKeyframe.content := by
    rw [← List.head?_map, ← List.head?_map, hks]
  have hlast : p.keyframes_.getLast?.map NodeKeyframe.content
      = q.keyframes_.getLast?.map NodeKeyframe.content := by
    rw [← List.getLast?_map, ← List.getLast?_map, hks]
  have hempty : p.keyframes_.isEmpty = q.keyframes_.isEmpty := by
    have hlen : p.keyframes_.length = q.keyframes_.length := by
      have := congrArg List.length hks
      simpa using this
    cases hp : p.keyframes_ with
    | nil =>
      rw [hp] at hlen
      have hq : q.keyframes_ = [] := List.length_eq_zero.mp hlen.symm
      rw [hq]
    | cons a tl =>
      rw [hp] at hlen
      cases hq : q.keyframes_ with
      | nil =>
        rw [hq] at hlen
        simp at hlen
      | cons b tl2 => rfl
  unfold NodeInput.get_value_at_time NodeInput.is_using_standard_value NodeInput.is_keyframing
  rw [← hdt, ← hsv, ← hkf, ← hempty, ← hloop]
  cases hph : p.keyframes_.head? with
  | none =>
    rw [hph] at hhead
    cases hqh : q.keyframes_.head? with
    | none => rfl
    | some b =>
      rw [hqh] at hhead
      simp at hhead
  | some a =>
    rw [hph] at hhead
    cases hqh : q.keyframes_.head? with
    | none =>
      rw [hqh] at hhead
      simp at hhead
    | some b =>
      rw [hqh] at hhead
      simp only [Option.map_some', Option.some.injEq] at hhead
      obtain ⟨hta, hva, _⟩ := content_eq hhead
      cases hpl : p.keyframes_.getLast? with
      | none =>
        rw [hpl] at hlast
        cases hql : q.keyframes_.getLast? with
        | none => rfl
        | some d =>
          rw [hql] at hlast
          simp at hlast
      | some c =>
        rw [hpl] at hlast
        cases hql : q.keyframes_.getLast? with
        | none =>
          rw [hql] at hlast
          simp at hlast
        | some d =>
          rw [hql] at hlast
          simp only [Option.map_some', Option.some.injEq] at hlast
          obtain ⟨htc, hvc, _⟩ := content_eq hlast
          simp only [hta, hva, htc, hvc]

/-- C15: after `CopyValues(A, B)` without connections, for parameters with the same identifier
and data type, `B` has the standard value and the keyframing flag of `A` and a keyframe sequence
equal to that of `A` element by element in time, value and type; `B` evaluates at every time to
what `A` evaluates to, and the last signal emitted on `B` is a value-changed over
`(-∞, +∞)`. -/
theorem CopyValues_copies (ConnectEdge : ℕ → NodeInput → Bool → NodeInput × List Signal)
    (alloc : ℕ → ℕ) (source dest : NodeInput) (lock_connections : Bool)
    (hid : source.id_ = dest.id_) (htype : source.data_type_ = dest.data_type_) :
    ∃ copy signals,
      NodeInput.CopyValues ConnectEdge alloc source dest false lock_connections
          = some (copy, signals)
        ∧ copy.standard_value_ = source.standard_value_
        ∧ copy.keyframing_ = source.keyframing_
        ∧ copy.keyframes_.map NodeKeyframe.content = source.keyframes_.map NodeKeyframe.content
        ∧ (∀ t, copy.get_value_at_time t = source.get_value_at_time t)
        ∧ signals.getLast?
          = some (Signal.ValueChanged TimeBound.RATIONAL_MIN TimeBound.RATIONAL_MAX) := by
  have hks := content_copy_keyframes alloc source.keyframes_ 0
  refine ⟨{ dest with
      standard_value_ := source.standard_value_
      keyframes_ := copy_keyframes alloc 0 source.keyframes_
      keyframing_ := source.keyframing_ },
    [Signal.KeyframeEnableChanged source.keyframing_,
     Signal.ValueChanged TimeBound.RATIONAL_MIN TimeBound.RATIONAL_MAX], ?_, rfl, rfl, hks, ?_, rfl⟩
  · simp [NodeInput.CopyValues, hid, NodeInput.set_is_keyframing, NodeInput.is_keyframing,
      NodeInput.IsArray]
  · intro t
    exact get_value_at_time_congr _ source t htype.symm rfl rfl hks

/-- C15 (witness): copying a keyframing float parameter with two keyframes onto a parameter
without keyframes. -/
theorem CopyValues_copies_witness :
    ∃ copy signals,
      NodeInput.CopyValues ConnectEdge_unused (fun i => 100 + i)
          (float_input [float_key 1 0 0 .kLinear, float_key 2 10 100 .kLinear])
          (still_input []) false false
          = some (copy, signals)
        ∧ copy.standard_value_
          = (float_input [float_key 1 0 0 .kLinear, float_key 2 10 100 .kLinear]).standard_value_
        ∧ copy.keyframing_
          = (float_input [float_key 1 0 0 .kLinear, float_key 2 10 100 .kLinear]).keyframing_
        ∧ copy.keyframes_.map NodeKeyframe.content
          = (float_input [float_key 1 0 0 .kLinear,
              float_key 2 10 100 .kLinear]).keyframes_.map NodeKeyframe.content
        ∧ (∀ t, copy.get_value_at_time t
          = (float_input [float_key 1 0 0 .kLinear,
              float_key 2 10 100 .kLinear]).get_value_at_time t)
        ∧ signals.getLast?
          = some (Signal.ValueChanged TimeBound.RATIONAL_MIN TimeBound.RATIONAL_MAX) :=
  CopyValues_copies ConnectEdge_unused (fun i => 100 + i)
    (float_input [float_key 1 0 0 .kLinear, float_key 2 10 100 .kLinear])
    (still_input []) false rfl rfl

/-! ## Claims about the position map -/

theorem assoc_remove_cons {V : Type} (k : ℕ) (e : ℕ × V) (rest : List (ℕ × V)) :
    assoc_remove k (e :: rest)
      = if e.1 = k then assoc_remove k rest else e :: assoc_remove k rest := by
  unfold assoc_remove
  by_cases h : e.1 = k
  · simp [List.filter_cons, h]
  · simp [List.filter_cons, h]

theorem assoc_remove_nil {V : Type} (k : ℕ) : assoc_remove k ([] : List (ℕ × V)) = [] := rfl

theorem assoc_find_insert_self {V : Type} (k : ℕ) (v : V) (m : List (ℕ × V)) :
    assoc_find k (assoc_insert k v m) = some v := by
  induction m with
  | nil => simp [assoc_insert, assoc_find]
  | cons e rest ih =>
    by_cases h1 : e.1 = k
    · rw [assoc_insert, if_pos h1, assoc_find, if_pos rfl]
    · by_cases h2 : k < e.1
      · rw [assoc_insert, if_neg h1, if_pos h2, assoc_find, if_pos rfl]
      · rw [assoc_insert, if_neg h1, if_neg h2, assoc_find, if_neg h1, ih]

theorem assoc_find_insert_ne {V : Type} (k c : ℕ) (v : V) (m : List (ℕ × V)) (h : c ≠ k) :
    assoc_find c (assoc_insert k v m) = assoc_find c m := by
  have hkc : ¬ (k, v).1 = c := fun e => h e.symm
  induction m with
  | nil =>
    show (if (k, v).1 = c then some v else none) = none
    rw [if_neg hkc]
  | cons e rest ih =>
    by_cases h1 : e.1 = k
    · have hec : ¬ e.1 = c := fun e2 => h (e2.symm.trans h1)
      rw [assoc_insert, if_pos h1, assoc_find, if_neg hkc, assoc_find, if_neg hec]
    · by_cases h2 : k < e.1
      · rw [assoc_insert, if_neg h1, if_pos h2, assoc_find, if_neg hkc]
      · rw [assoc_insert, if_neg h1, if_neg h2]
        by_cases h3 : e.1 = c
        · rw [assoc_find, if_pos h3, assoc_find, if_pos h3]
        · rw [assoc_find, if_neg h3, assoc_find, if_neg h3, ih]

theorem assoc_find_remove_self {V : Type} (k : ℕ) (m : List (ℕ × V)) :
    assoc_find k (assoc_remove k m) = none := by
  induction m with
  | nil => rfl
  | cons e rest ih =>
    rw [assoc_remove_cons]
    by_cases h1 : e.1 = k
    · rw [if_pos h1, ih]
    · rw [if_neg h1, assoc_find, if_neg h1, ih]

theorem assoc_find_remove_ne {V : Type} (k c : ℕ) (m : List (ℕ × V)) (h : c ≠ k) :
    assoc_find c (assoc_remove k m) = assoc_find c m := by
  induction m with
  | nil => rfl
  | cons e rest ih =>
    rw [assoc_remove_cons]
    by_cases h1 : e.1 = k
    · have hec : ¬ e.1 = c := fun e2 => h (e2.symm.trans h1)
      rw [if_pos h1, ih, assoc_find, if_neg hec]
    · rw [if_neg h1]
      by_cases h3 : e.1 = c
      · rw [assoc_find, if_pos h3, assoc_find, if_pos h3]
      · rw [assoc_find, if_neg h3, assoc_find, if_neg h3, ih]

theorem assoc_remove_insert {V : Type} (k : ℕ) (v : V) (m : List (ℕ × V)) :
    assoc_remove k (assoc_insert k v m) = assoc_remove k m := by
  have hk : (k, v).1 = k := rfl
  induction m with
  | nil =>
    rw [assoc_insert, assoc_remove_cons, if_pos hk]
  | cons e rest ih =>
    by_cases h1 : e.1 = k
    · rw [assoc_insert, if_pos h1, assoc_remove_cons, if_pos hk, assoc_remove_cons, if_pos h1]
    · by_cases h2 : k < e.1
      · rw [assoc_insert, if_neg h1, if_pos h2, assoc_remove_cons, if_pos hk]
      · rw [assoc_insert, if_neg h1, if_neg h2, assoc_remove_cons, if_neg h1, ih,
          assoc_remove_cons, if_neg h1]

theorem assoc_remove_remove {V : Type} (k : ℕ) (m : List (ℕ × V)) :
    assoc_remove k (assoc_remove k m) = assoc_remove k m := by
  induction m with
  | nil => rfl
  | cons e rest ih =>
    by_cases h1 : e.1 = k
    · rw [assoc_remove_cons, if_pos h1, ih]
    · rw [assoc_remove_cons, if_neg h1, assoc_remove_cons, if_neg h1, ih]

theorem assoc_insert_insert {V : Type} (k : ℕ) (v : V) (m : List (ℕ × V)) :
    assoc_insert k v (assoc_insert k v m) = assoc_insert k v m := by
  have hk : (k, v).1 = k := rfl
  induction m with
  | nil => rw [assoc_insert, assoc_insert, if_pos hk]
  | cons e rest ih =>
    by_cases h1 : e.1 = k
    · rw [assoc_insert, if_pos h1, assoc_insert, if_pos hk]
    · by_cases h2 : k < e.1
      · rw [assoc_insert, if_neg h1, if_pos h2, assoc_insert, if_pos hk]
      · rw [assoc_insert, if_neg h1, if_neg h2, assoc_insert, if_neg h1, if_neg h2, ih]

theorem RemoveNodePosition_position_map (g : NodeGraph) (node context : ℕ) :
    (g.RemoveNodePosition node context).1.position_map_
      = if (assoc_remove node (QMap_value g.position_map_ context)).isEmpty then
          assoc_remove context g.position_map_
        else
          assoc_insert context (assoc_remove node (QMap_value g.position_map_ context))
            g.position_map_ := by
  unfold NodeGraph.RemoveNodePosition QMap_subscript QMap_value
  cases hfind : assoc_find context g.position_map_ with
  | none =>
    simp [assoc_find_insert_self, assoc_remove_insert, assoc_remove_nil]
  | some m =>
    simp only [Option.isSome_some, if_true, hfind, Option.getD_some]
    by_cases hempty : (assoc_remove node m).isEmpty = true
    · simp only [hempty, if_true, assoc_remove_insert]
    · simp only [hempty]
      rfl

/-- C16 (failing input): on a graph with an empty position map, `ContextContainsNode(1, 2)`
answers false, as `NodeMapContainsNode(1, 2)` does, but leaves an empty sub-map for the unknown
context `2` in the position map. -/
theorem ContextContainsNode_materialises_sub_map :
    (NodeGraph.mk []).NodeMapContainsNode 1 2 = false
      ∧ (NodeGraph.mk []).ContextContainsNode 1 2 = (false, NodeGraph.mk [(2, [])])
      ∧ ((NodeGraph.mk []).ContextContainsNode 1 2).2 ≠ NodeGraph.mk []
      ∧ assoc_find 2 ((NodeGraph.mk []).ContextContainsNode 1 2).2.position_map_ = some [] := by
  refine ⟨?_, ?_, ?_, ?_⟩ <;>
    simp [NodeGraph.NodeMapContainsNode, NodeGraph.ContextContainsNode, QMap_subscript,
      QMap_value, QHash_contains, assoc_find, assoc_insert]

/-- C17: `RemoveNodePosition(node, context)` leaves no entry for `node` under `context` and no
empty sub-map for `context`, changes no entry of another context and no entry of another node
under `context`, emits the position-removed signal, and a second call with the same arguments
gives the state back that the first call left. -/
theorem RemoveNodePosition_spec (g : NodeGraph) (node context : ℕ) :
    (g.RemoveNodePosition node context).1.NodeMapContainsNode node context = false
      ∧ assoc_find context (g.RemoveNodePosition node context).1.position_map_ ≠ some []
      ∧ (∀ c, c ≠ context →
          assoc_find c (g.RemoveNodePosition node context).1.position_map_
            = assoc_find c g.position_map_)
      ∧ (∀ n, n ≠ node →
          assoc_find n (QMap_value (g.RemoveNodePosition node context).1.position_map_ context)
            = assoc_find n (QMap_value g.position_map_ context))
      ∧ (g.RemoveNodePosition node context).2 = [GraphSignal.NodePositionRemoved node context]
      ∧ (g.RemoveNodePosition node context).1.RemoveNodePosition node context
          = ((g.RemoveNodePosition node context).1,
              [GraphSignal.NodePositionRemoved node context]) := by
  have hpm := RemoveNodePosition_position_map g node context
  have hpm2 := RemoveNodePosition_position_map (g.RemoveNodePosition node context).1 node context
  have hidem : ∀ h : NodeGraph, h.RemoveNodePosition node context
      = (⟨(h.RemoveNodePosition node context).1.position_map_⟩,
          [GraphSignal.NodePositionRemoved node context]) := fun h => rfl
  have heta : (g.RemoveNodePosition node context).1
      = ⟨(g.RemoveNodePosition node context).1.position_map_⟩ := rfl
  have hrest : ∀ n, n ≠ node →
      assoc_find n (assoc_remove node (QMap_value g.position_map_ context))
        = assoc_find n (QMap_value g.position_map_ context) := fun n hn =>
    assoc_find_remove_ne node n _ hn
  by_cases hempty : (assoc_remove node (QMap_value g.position_map_ context)).isEmpty = true
  · rw [if_pos hempty] at hpm
    have hnil : assoc_remove node (QMap_value g.position_map_ context) = [] :=
      List.isEmpty_iff.mp hempty
    have hval : QMap_value (g.RemoveNodePosition node context).1.position_map_ context = [] := by
      rw [hpm]
      simp [QMap_value, assoc_find_remove_self]
    refine ⟨?_, ?_, ?_, ?_, rfl, ?_⟩
    · simp [NodeGraph.NodeMapContainsNode, hval, QHash_contains, assoc_find]
    · rw [hpm, assoc_find_remove_self]
      simp
    · intro c hc
      rw [hpm]
      exact assoc_find_remove_ne context c _ hc
    · intro n hn
      rw [hval, ← hrest n hn, hnil]
    · rw [hidem, hpm2, hval]
      have h2 : (assoc_remove node ([] : PositionMap)).isEmpty = true := rfl
      rw [if_pos h2, hpm, assoc_remove_remove, heta, hpm]
  · rw [if_neg hempty] at hpm
    have hval : QMap_value (g.RemoveNodePosition node context).1.position_map_ context
        = assoc_remove node (QMap_value g.position_map_ context) := by
      rw [hpm]
      simp [QMap_value, assoc_find_insert_self]
    refine ⟨?_, ?_, ?_, ?_, rfl, ?_⟩
    · simp [NodeGraph.NodeMapContainsNode, hval, QHash_contains, assoc_find_remove_self]
    · rw [hpm, assoc_find_insert_self]
      intro h
      simp only [Option.some.injEq] at h
      rw [h] at hempty
      exact hempty rfl
    · intro c hc
      rw [hpm]
      exact assoc_find_insert_ne context c _ _ hc
    · intro n hn
      rw [hval]
      exact hrest n hn
    · rw [hidem, hpm2, hval, assoc_remove_remove, if_neg hempty, hpm, assoc_insert_insert,
        heta, hpm]

end Olive
